import Mathlib

/-!
# WorkMuxLimited: a job multiplexer with one counting semaphore per tube

Shallow embedding of `muxSemaphore.go`.

* The routing table `m map[string]muxEntryLimited` is either the nil map (`none`),
  as in the zero value `WorkMuxLimited{}`, or a finite map with unique keys
  (`AList`). Reading the nil map finds nothing; writing to it panics.
* A `chan struct{}` is a reference to a heap cell holding the capacity and the
  number of buffered elements; the heap is the list `chans`, a reference is
  `Option Nat` (`none` is the nil channel).
* The goroutines started by `Work` are the list `running`.
* `Handler` (an interface) and `Job` are declared outside this file of the
  repository: handler implementations are a type parameter `H`, an interface
  value is `Option H` (`none` is nil), and a job is its tube with a payload of
  a parameter type `P`.
* The `sync.RWMutex` is not part of the state: every method is one atomic step
  there, and each method releases the lock it takes before it returns or
  panics. Which mutex a method locks around which access to `m` is a separate
  list of steps per method (`HandleOps`, `HandlerOps`, `WorkOps`).
-/

namespace Workers

/-- How a call ends: it returns, it panics with a message, or it cannot
proceed in the current state (a channel operation that blocks). -/
inductive Outcome where
  | returned : Outcome
  | panicked (msg : String) : Outcome
  | blocked : Outcome
  deriving DecidableEq, Repr

/-- Modelled from the spec: the `Job` struct is declared outside `muxSemaphore.go`;
the spec says a job is opaque beyond its category label and content. -/
structure Job (P : Type) where
  Tube : String
  payload : P
  deriving DecidableEq, Repr

/-- Heap cell of a `chan struct{}`: elements carry no data, so the buffer is
its length. -/
structure Chan where
  cap : Nat
  len : Nat
  deriving DecidableEq, Repr

/-- Go `make(chan struct{}, limit)`: panics on a negative size; the element size is
zero, so no non-negative size is out of range. -/
def makeChan (limit : Int) : Except String Chan :=
  if limit < 0 then .error "makechan: size out of range"
  else .ok { cap := limit.toNat, len := 0 }

/-- Go `sem <- struct{}{}` on a channel cell with no receiver waiting: `none` means the
send blocks. -/
def Chan.send (c : Chan) : Option Chan :=
  if c.len < c.cap then some { c with len := c.len + 1 } else none

/-- Go `<-sem` on a channel cell with no sender waiting: `none` means the receive
blocks. -/
def Chan.recv (c : Chan) : Option Chan :=
  if 0 < c.len then some { c with len := c.len - 1 } else none

/-- Go struct `muxEntryLimited`. -/
structure muxEntryLimited (H : Type) where
  h : Option H
  tube : String
  sem : Option Nat
  deriving DecidableEq, Repr

/-- Go struct `WorkMuxLimited` (field `m`, `none` being the nil map; see the header
for `mu`). -/
structure WorkMuxLimited (H : Type) where
  m : Option (AList (fun _ : String => muxEntryLimited H))

/-- What a read of the map `m` sees: a nil map reads as a map with no key. -/
def WorkMuxLimited.table {H : Type} (mux : WorkMuxLimited H) :
    AList (fun _ : String => muxEntryLimited H) :=
  match mux.m with
  | some m => m
  | none => ∅

/-- The goroutine `go func() { defer func() { <-sem }(); h.Work(j) }()` with the
variables its closure captures. -/
structure Invocation (H P : Type) where
  sem : Option Nat
  h : H
  j : Job P
  deriving DecidableEq, Repr

/-- The router together with the channels it allocated and the goroutines it
started. -/
structure Sys (H P : Type) where
  mux : WorkMuxLimited H
  chans : List Chan
  running : List (Invocation H P)

/-- Go `NewWorkMuxLimited`: an empty map made by `make`; nothing allocated or started
yet. -/
def NewWorkMuxLimited (H P : Type) : Sys H P :=
  { mux := { m := some ∅ }, chans := [], running := [] }

/-- Go zero value `WorkMuxLimited{}` (as in `var mux WorkMuxLimited`): the map is nil. -/
def zeroWorkMuxLimited (H P : Type) : Sys H P :=
  { mux := { m := none }, chans := [], running := [] }

/-- Go `mux.m[tube]` in its one-result form: the zero value when the key is
absent. -/
def mapIndex {H : Type} (m : AList (fun _ : String => muxEntryLimited H)) (tube : String) :
    muxEntryLimited H :=
  match m.lookup tube with
  | some e => e
  | none => { h := none, tube := "", sem := none }

/-- Go `(*WorkMuxLimited).Handle`. The write `mux.m[tube] = ...` panics on the nil map;
the channel made just before is then referenced by nothing and is not kept. -/
def Handle {H P : Type} (s : Sys H P) (tube : String) (handler : Option H) (limit : Int) :
    Sys H P × Outcome :=
  if tube = "" then (s, .panicked "invalid tube")
  else if handler.isNone then (s, .panicked "nil handler")
  else if (s.mux.table.lookup tube).isSome then
    (s, .panicked ("multiple registrations for " ++ tube))
  else
    match makeChan limit with
    | .error msg => (s, .panicked msg)
    | .ok c =>
      let sem := s.chans.length
      match s.mux.m with
      | none => (s, .panicked "assignment to entry in nil map")
      | some m =>
        ({ s with
            chans := s.chans ++ [c]
            mux := { m := some (m.insert tube { h := handler, tube := tube, sem := some sem }) } },
          .returned)

/-- Go `(*WorkMuxLimited).Handler`. -/
def Handler {H P : Type} (s : Sys H P) (tube : String) : Sys H P × Option H :=
  match s.mux.table.lookup tube with
  | some handler => (s, handler.h)
  | none => (s, none)

/-- Go `(*WorkMuxLimited).Tubes`: the slice is allocated with `len(mux.m)` zero
strings and filled in iteration order (here: the order of the entries). -/
def Tubes {H P : Type} (s : Sys H P) : Sys H P × List String :=
  let tubes := List.replicate s.mux.table.entries.length ""
  (s, (s.mux.table.entries.foldl (fun (acc : List String × Nat) kv =>
      (acc.1.set acc.2 kv.1, acc.2 + 1)) (tubes, 0)).1)

/-- Go `(WorkMuxLimited).Work`. The job is a pointer (`none` is nil). The send and
the `go` statement that follows it are one step. -/
def Work {H P : Type} (s : Sys H P) (j : Option (Job P)) : Sys H P × Outcome :=
  match j with
  | none => (s, .panicked "runtime error: invalid memory address or nil pointer dereference")
  | some job =>
    match (Handler s job.Tube).2 with
    | none => (s, .panicked ("no handler for tube " ++ job.Tube))
    | some h =>
      match (mapIndex s.mux.table job.Tube).sem with
      | none => (s, .blocked)
      | some sem =>
        match s.chans[sem]? with
        | none => (s, .blocked)
        | some c =>
          match c.send with
          | none => (s, .blocked)
          | some c1 =>
            ({ s with
                chans := s.chans.set sem c1
                running := s.running ++ [{ sem := some sem, h := h, j := job }] },
              .returned)

/-- How the handler's `Work(j)` inside a goroutine ends. -/
inductive HandlerExit where
  | normal : HandlerExit
  | fault (msg : String) : HandlerExit
  deriving DecidableEq, Repr

/-- End of the goroutine at position `i` of `running`: `h.Work(j)` has ended with
`x`, the deferred `<-sem` runs, and the goroutine is gone; after a fault the
panic goes on past the deferred call. -/
def finish {H P : Type} (s : Sys H P) (i : Nat) (x : HandlerExit) : Sys H P × Outcome :=
  match s.running[i]? with
  | none => (s, .blocked)
  | some inv =>
    match inv.sem with
    | none => (s, .blocked)
    | some sem =>
      match s.chans[sem]? with
      | none => (s, .blocked)
      | some c =>
        match c.recv with
        | none => (s, .blocked)
        | some c1 =>
          ({ s with chans := s.chans.set sem c1, running := s.running.eraseIdx i },
            match x with
            | .normal => .returned
            | .fault msg => .panicked msg)

/-- One step of a client of the router or of one of its goroutines. -/
inductive Event (H P : Type) where
  | handle (tube : String) (handler : Option H) (limit : Int) : Event H P
  | handler (tube : String) : Event H P
  | tubes : Event H P
  | work (j : Option (Job P)) : Event H P
  | done (i : Nat) (x : HandlerExit) : Event H P

/-- State after one event. -/
def step {H P : Type} (s : Sys H P) : Event H P → Sys H P
  | .handle tube handler limit => (Handle s tube handler limit).1
  | .handler tube => (Handler s tube).1
  | .tubes => (Tubes s).1
  | .work j => (Work s j).1
  | .done i x => (finish s i x).1

/-- State after a sequence of events. -/
def run {H P : Type} (s : Sys H P) (evs : List (Event H P)) : Sys H P :=
  evs.foldl step s

/-- The channel cell of the gate of `tube`, if `tube` is registered. -/
def gate {H P : Type} (s : Sys H P) (tube : String) : Option Chan :=
  (s.mux.table.lookup tube).bind fun e => e.sem.bind fun sem => s.chans[sem]?

/-- Number of goroutines running the handler on a job of `tube`. -/
def runningFor {H P : Type} (s : Sys H P) (tube : String) : Nat :=
  s.running.countP fun inv => inv.j.Tube = tube

/-- What holds of every state a new router reaches: the map is not nil; each entry
sits under its own non-empty tube with a non-nil handler and an allocated
channel; two tubes never
share a channel; a channel never holds more than its capacity and holds one
element per goroutine started on it; each goroutine runs the handler of its
job's tube on that tube's channel. -/
structure Inv {H P : Type} (s : Sys H P) : Prop where
  alloc : s.mux.m.isSome = true
  entry : ∀ c e, s.mux.table.lookup c = some e →
    e.tube = c ∧ c ≠ "" ∧ e.h.isSome = true ∧ ∃ sem, e.sem = some sem ∧ sem < s.chans.length
  inj : ∀ c1 c2 e1 e2, s.mux.table.lookup c1 = some e1 → s.mux.table.lookup c2 = some e2 →
    e1.sem = e2.sem → c1 = c2
  chan : ∀ sem g, s.chans[sem]? = some g →
    g.len ≤ g.cap ∧ s.running.countP (fun r => r.sem = some sem) = g.len
  goroutine : ∀ r ∈ s.running,
    ∃ e, s.mux.table.lookup r.j.Tube = some e ∧ e.sem = r.sem ∧ e.h = some r.h

/-- The two `sync.RWMutex` values a call can lock: field `mu` of the router, which a
method with a pointer receiver works on, and field `mu` of the copy of the
router struct that a method with a value receiver works on. -/
inductive Mutex where
  | router : Mutex
  | copy : Mutex
  deriving DecidableEq, Repr

/-- A lock operation or an access to the map `m`, as one step of a method body. -/
inductive Op where
  | Lock (mu : Mutex) : Op
  | Unlock (mu : Mutex) : Op
  | RLock (mu : Mutex) : Op
  | RUnlock (mu : Mutex) : Op
  | mapRead : Op
  | mapWrite : Op
  deriving DecidableEq, Repr

/-- Steps of `(*WorkMuxLimited).Handle` called on the router: `mux.mu.Lock()`, the
lookup `mux.m[tube]` unless an earlier check panics, the write `mux.m[tube] = ...`
unless a check or `make` panics, and the deferred `mux.mu.Unlock()`. -/
def HandleOps {H P : Type} (s : Sys H P) (tube : String) (handler : Option H) (limit : Int) :
    List Op :=
  [.Lock .router] ++
    (if tube = "" then []
    else if handler.isNone then []
    else [.mapRead] ++
      (if (s.mux.table.lookup tube).isSome then []
      else
        match makeChan limit with
        | .error _ => []
        | .ok _ => [.mapWrite])) ++
    [.Unlock .router]

/-- Steps of `(*WorkMuxLimited).Handler` called on the struct whose mutex is `mu`:
`mux.mu.RLock()`, the lookup `mux.m[tube]`, the deferred `mux.mu.RUnlock()`. -/
def HandlerOps (mu : Mutex) : List Op :=
  [.RLock mu, .mapRead, .RUnlock mu]

/-- Steps of `(WorkMuxLimited).Work`: the receiver `mux` is a copy of the router struct,
so `mux.Handler(j.Tube)` is called on the copy and locks the copy's mutex; after
the nil check, `mux.m[j.Tube].sem` reads the map with no lock operation around
it. -/
def WorkOps {H P : Type} (s : Sys H P) (j : Option (Job P)) : List Op :=
  match j with
  | none => []
  | some job =>
    HandlerOps .copy ++
      (match (Handler s job.Tube).2 with
      | none => []
      | some _ => [.mapRead])

/-- Whether every map read among the steps happens while `mu` is read-locked, given
the mutexes read-locked before the first step. -/
def readsUnder (mu : Mutex) : List Mutex → List Op → Bool
  | _, [] => true
  | held, .RLock l :: ops => readsUnder mu (l :: held) ops
  | held, .RUnlock l :: ops => readsUnder mu (held.erase l) ops
  | held, .mapRead :: ops => decide (mu ∈ held) && readsUnder mu held ops
  | held, .Lock _ :: ops => readsUnder mu held ops
  | held, .Unlock _ :: ops => readsUnder mu held ops
  | held, .mapWrite :: ops => readsUnder mu held ops

/-- Whether every map write among the steps happens while `mu` is write-locked. -/
def writesUnder (mu : Mutex) : Bool → List Op → Bool
  | _, [] => true
  | _, .Lock l :: ops => writesUnder mu (decide (l = mu)) ops
  | locked, .Unlock l :: ops => writesUnder mu (locked && !decide (l = mu)) ops
  | locked, .mapWrite :: ops => locked && writesUnder mu locked ops
  | locked, .RLock _ :: ops => writesUnder mu locked ops
  | locked, .RUnlock _ :: ops => writesUnder mu locked ops
  | locked, .mapRead :: ops => writesUnder mu locked ops

/-! ## Reading the table -/

@[simp]
theorem table_mk {H : Type} (m : AList (fun _ : String => muxEntryLimited H)) :
    (WorkMuxLimited.mk (some m)).table = m :=
  rfl

theorem table_of_some {H : Type} (mux : WorkMuxLimited H)
    (m : AList (fun _ : String => muxEntryLimited H)) (h : mux.m = some m) : mux.table = m := by
  simp [WorkMuxLimited.table, h]

theorem table_of_none {H : Type} (mux : WorkMuxLimited H) (h : mux.m = none) :
    mux.table = ∅ := by
  simp [WorkMuxLimited.table, h]

/-- A map that is not nil is the table that reads of it see. -/
theorem m_of_isSome {H : Type} (mux : WorkMuxLimited H) (h : mux.m.isSome = true) :
    mux.m = some mux.table := by
  obtain ⟨m, hm⟩ := Option.isSome_iff_exists.mp h
  rw [table_of_some mux m hm, hm]

/-! ## Registration and lookup -/

/-- C1 as amended: a tube with no registration is not found by `Handler`, in every
state, the nil map included; and when the map is not nil and the tube is
moreover non-empty, `Handle` with a non-nil handler and a limit `n ≥ 0` returns
and `Handler` then gives back exactly that handler. -/
theorem handler_after_handle {H P : Type} (s : Sys H P) (c : String)
    (hun : s.mux.table.lookup c = none) :
    (Handler s c).2 = none ∧
    ∀ (h : H) (n : Int), s.mux.m.isSome = true → c ≠ "" → 0 ≤ n →
      (Handle s c (some h) n).2 = .returned ∧
      (Handler (Handle s c (some h) n).1 c).2 = some h := by
  refine ⟨by simp [Handler, hun], ?_⟩
  intro h n halloc hc hn
  have hlim : ¬ n < 0 := by omega
  have hm := m_of_isSome s.mux halloc
  simp [Handle, Handler, makeChan, hc, hun, hlim, hm]

theorem handler_after_handle_witness :
    (Handler (NewWorkMuxLimited Nat Nat) "mail").2 = none ∧
    (Handle (NewWorkMuxLimited Nat Nat) "mail" (some 7) 2).2 = .returned ∧
    (Handler (Handle (NewWorkMuxLimited Nat Nat) "mail" (some 7) 2).1 "mail").2 = some 7 :=
  ⟨(handler_after_handle (NewWorkMuxLimited Nat Nat) "mail" (by decide)).1,
    (handler_after_handle (NewWorkMuxLimited Nat Nat) "mail" (by decide)).2 7 2
      (by decide) (by decide) (by decide)⟩

/-- C1 as stated fails on the zero-value router: tube "mail" is non-empty and not
registered, the handler is non-nil and the limit is 1, yet `Handle` panics on
the write to the nil map and `Handler` afterwards still finds nothing. -/
theorem handle_on_zero_value_router :
    "mail" ≠ "" ∧ (zeroWorkMuxLimited Nat Nat).mux.table.lookup "mail" = none ∧ (0 : Int) ≤ 1 ∧
    Handle (zeroWorkMuxLimited Nat Nat) "mail" (some 7) 1 =
      (zeroWorkMuxLimited Nat Nat, .panicked "assignment to entry in nil map") ∧
    (Handler (Handle (zeroWorkMuxLimited Nat Nat) "mail" (some 7) 1).1 "mail").2 = none ∧
    (Handler (Handle (zeroWorkMuxLimited Nat Nat) "mail" (some 7) 1).1 "mail").2 ≠ some 7 := by
  refine ⟨by decide, by decide, by decide, rfl, by decide, by decide⟩

/-- C2: when tube `c` already has an entry, `Handle` on `c` panics for every handler
(nil or not) and every limit, the state is what it was, and the entry of `c` is
still the old one. -/
theorem handle_twice_panics {H P : Type} (s : Sys H P) (c : String) (e : muxEntryLimited H)
    (hreg : s.mux.table.lookup c = some e) (h2 : Option H) (n2 : Int) :
    (∃ msg, (Handle s c h2 n2).2 = .panicked msg) ∧
    (Handle s c h2 n2).1 = s ∧
    (Handle s c h2 n2).1.mux.table.lookup c = some e := by
  have key : ∃ msg, Handle s c h2 n2 = (s, .panicked msg) := by
    by_cases hc : c = ""
    · exact ⟨"invalid tube", by simp [Handle, hc]⟩
    · cases h2 with
      | none => exact ⟨"nil handler", by simp [Handle, hc]⟩
      | some h => exact ⟨"multiple registrations for " ++ c, by simp [Handle, hc, hreg]⟩
  obtain ⟨msg, hmsg⟩ := key
  rw [hmsg]
  exact ⟨⟨msg, rfl⟩, rfl, hreg⟩

theorem handle_twice_panics_witness :
    (∃ msg, (Handle (Handle (NewWorkMuxLimited Nat Nat) "mail" (some 7) 2).1 "mail"
      (some 8) (-1)).2 = .panicked msg) ∧
    (Handle (Handle (NewWorkMuxLimited Nat Nat) "mail" (some 7) 2).1 "mail" (some 8) (-1)).1 =
      (Handle (NewWorkMuxLimited Nat Nat) "mail" (some 7) 2).1 ∧
    (Handle (Handle (NewWorkMuxLimited Nat Nat) "mail" (some 7) 2).1 "mail"
      (some 8) (-1)).1.mux.table.lookup "mail" = some { h := some 7, tube := "mail", sem := some 0 } :=
  handle_twice_panics (Handle (NewWorkMuxLimited Nat Nat) "mail" (some 7) 2).1 "mail"
    { h := some 7, tube := "mail", sem := some 0 } (by decide) (some 8) (-1)

/-- The message of a duplicate registration is longer than the two fixed ones. -/
theorem multiple_length (c : String) :
    27 ≤ ("multiple registrations for " ++ c).length := by
  rw [String.length_append]
  have : "multiple registrations for ".length = 27 := by decide
  omega

/-- C3: `Handle` panics with "invalid tube" on the empty tube and panics on a nil
handler, whatever the other arguments and the state; a non-empty tube with a
nil handler gives "nil handler"; a non-empty registered tube with a non-nil
handler gives "multiple registrations for " followed by the tube; and the
three messages are pairwise different for every tube. -/
theorem handle_misuse_messages {H P : Type} :
    (∀ (s : Sys H P) (h : Option H) (n : Int),
      Handle s "" h n = (s, .panicked "invalid tube")) ∧
    (∀ (s : Sys H P) (c : String) (n : Int),
      ∃ msg, Handle s c none n = (s, .panicked msg)) ∧
    (∀ (s : Sys H P) (c : String) (n : Int), c ≠ "" →
      Handle s c none n = (s, .panicked "nil handler")) ∧
    (∀ (s : Sys H P) (c : String) (e : muxEntryLimited H) (h : H) (n : Int), c ≠ "" →
      s.mux.table.lookup c = some e →
      Handle s c (some h) n = (s, .panicked ("multiple registrations for " ++ c))) ∧
    (∀ c : String, "invalid tube" ≠ "nil handler" ∧
      "invalid tube" ≠ "multiple registrations for " ++ c ∧
      "nil handler" ≠ "multiple registrations for " ++ c) := by
  refine ⟨?_, ?_, ?_, ?_, ?_⟩
  · intro s h n
    simp [Handle]
  · intro s c n
    by_cases hc : c = ""
    · exact ⟨"invalid tube", by simp [Handle, hc]⟩
    · exact ⟨"nil handler", by simp [Handle, hc]⟩
  · intro s c n hc
    simp [Handle, hc]
  · intro s c e h n hc hreg
    simp [Handle, hc, hreg]
  · intro c
    have hlen := multiple_length c
    refine ⟨by decide, ?_, ?_⟩
    · intro heq
      rw [← heq] at hlen
      revert hlen
      decide
    · intro heq
      rw [← heq] at hlen
      revert hlen
      decide

theorem handle_misuse_messages_witness :
    Handle (NewWorkMuxLimited Nat Nat) "mail" none 3 =
      (NewWorkMuxLimited Nat Nat, .panicked "nil handler") ∧
    Handle (Handle (NewWorkMuxLimited Nat Nat) "mail" (some 7) 2).1 "mail" (some 8) 3 =
      ((Handle (NewWorkMuxLimited Nat Nat) "mail" (some 7) 2).1,
        .panicked ("multiple registrations for " ++ "mail")) :=
  ⟨(handle_misuse_messages (H := Nat) (P := Nat)).2.2.1 _ "mail" 3 (by decide),
    (handle_misuse_messages (H := Nat) (P := Nat)).2.2.2.1 _ "mail"
      { h := some 7, tube := "mail", sem := some 0 } 8 3 (by decide) (by decide)⟩

/-! ## Dispatch -/

/-- C4: for a job whose tube has no entry, `Work` panics with "no handler for tube "
followed by the tube, and the state (channels and goroutines included) is
what it was: no slot is taken and nothing is started. -/
theorem work_unregistered_panics {H P : Type} (s : Sys H P) (j : Job P)
    (hun : s.mux.table.lookup j.Tube = none) :
    Work s (some j) = (s, .panicked ("no handler for tube " ++ j.Tube)) ∧
    (Work s (some j)).1.chans = s.chans ∧
    (Work s (some j)).1.running = s.running := by
  have hw : Work s (some j) = (s, .panicked ("no handler for tube " ++ j.Tube)) := by
    simp [Work, Handler, hun]
  exact ⟨hw, by rw [hw], by rw [hw]⟩

theorem work_unregistered_panics_witness :
    Work (Handle (NewWorkMuxLimited Nat Nat) "mail" (some 7) 2).1 (some ⟨"sms", 0⟩) =
      ((Handle (NewWorkMuxLimited Nat Nat) "mail" (some 7) 2).1,
        .panicked ("no handler for tube " ++ "sms")) ∧
    (Work (Handle (NewWorkMuxLimited Nat Nat) "mail" (some 7) 2).1 (some ⟨"sms", 0⟩)).1.chans =
      (Handle (NewWorkMuxLimited Nat Nat) "mail" (some 7) 2).1.chans ∧
    (Work (Handle (NewWorkMuxLimited Nat Nat) "mail" (some 7) 2).1 (some ⟨"sms", 0⟩)).1.running =
      (Handle (NewWorkMuxLimited Nat Nat) "mail" (some 7) 2).1.running :=
  work_unregistered_panics (Handle (NewWorkMuxLimited Nat Nat) "mail" (some 7) 2).1
    ⟨"sms", 0⟩ (by decide)

/-! ## The three ways a state changes -/

/-- State after a successful `Handle`. -/
theorem Handle_cases {H P : Type} (s : Sys H P) (c : String) (h : Option H) (n : Int) :
    ((Handle s c h n).1 = s ∧ (Handle s c h n).2 ≠ .returned) ∨
    (c ≠ "" ∧ s.mux.table.lookup c = none ∧ 0 ≤ n ∧ ∃ hh, h = some hh ∧
      Handle s c h n = ({ s with
        chans := s.chans ++ [{ cap := n.toNat, len := 0 }]
        mux := { m := some (s.mux.table.insert c
          { h := some hh, tube := c, sem := some s.chans.length }) } },
        .returned)) := by
  by_cases hc : c = ""
  · left; simp [Handle, hc]
  · cases h with
    | none => left; simp [Handle, hc]
    | some hh =>
      cases hl : s.mux.table.lookup c with
      | some e => left; simp [Handle, hc, hl]
      | none =>
        by_cases hn : n < 0
        · left; simp [Handle, hc, hl, makeChan, hn]
        · cases hm : s.mux.m with
          | none => left; simp [Handle, hc, hl, makeChan, hn, hm]
          | some m0 =>
            right
            have htab := table_of_some s.mux m0 hm
            have hl0 : m0.lookup c = none := by rw [← htab]; exact hl
            refine ⟨hc, rfl, by omega, hh, rfl, ?_⟩
            simp [Handle, hc, hl0, makeChan, hn, hm, htab]

/-- State after an admitted `Work`. -/
theorem Work_cases {H P : Type} (s : Sys H P) (j : Option (Job P)) :
    ((Work s j).1 = s ∧ (Work s j).2 ≠ .returned) ∨
    (∃ job e h sem g, j = some job ∧ s.mux.table.lookup job.Tube = some e ∧ e.h = some h ∧
      e.sem = some sem ∧ s.chans[sem]? = some g ∧ g.len < g.cap ∧
      Work s j = ({ s with
        chans := s.chans.set sem { cap := g.cap, len := g.len + 1 }
        running := s.running ++ [{ sem := some sem, h := h, j := job }] }, .returned)) := by
  cases j with
  | none => left; simp [Work]
  | some job =>
    cases hl : s.mux.table.lookup job.Tube with
    | none => left; simp [Work, Handler, hl]
    | some e =>
      cases hh : e.h with
      | none => left; simp [Work, Handler, hl, hh]
      | some h =>
        cases hs : e.sem with
        | none => left; simp [Work, Handler, mapIndex, hl, hh, hs]
        | some sem =>
          cases hg : s.chans[sem]? with
          | none => left; simp [Work, Handler, mapIndex, hl, hh, hs, hg]
          | some g =>
            by_cases hfree : g.len < g.cap
            · right
              refine ⟨job, e, h, sem, g, rfl, hl, hh, hs, hg, hfree, ?_⟩
              simp [Work, Handler, mapIndex, hl, hh, hs, hg, Chan.send, hfree]
            · left; simp [Work, Handler, mapIndex, hl, hh, hs, hg, Chan.send, hfree]

/-- State after the end of a goroutine. -/
theorem finish_cases {H P : Type} (s : Sys H P) (i : Nat) (x : HandlerExit) :
    ((finish s i x).1 = s ∧ (finish s i x).2 = .blocked) ∨
    (∃ r sem g, s.running[i]? = some r ∧ r.sem = some sem ∧ s.chans[sem]? = some g ∧
      0 < g.len ∧
      finish s i x = ({ s with
        chans := s.chans.set sem { cap := g.cap, len := g.len - 1 }
        running := s.running.eraseIdx i },
        match x with
        | .normal => .returned
        | .fault msg => .panicked msg)) := by
  cases hr : s.running[i]? with
  | none => left; simp [finish, hr]
  | some r =>
    cases hs : r.sem with
    | none => left; simp [finish, hr, hs]
    | some sem =>
      cases hg : s.chans[sem]? with
      | none => left; simp [finish, hr, hs, hg]
      | some g =>
        by_cases hpos : 0 < g.len
        · right
          refine ⟨r, sem, g, rfl, hs, hg, hpos, ?_⟩
          simp [finish, hr, hs, hg, Chan.recv, hpos]
        · left; simp [finish, hr, hs, hg, Chan.recv, hpos]

/-! ## The invariant -/

/-- Removing one element lowers a count by one exactly when the element counts. -/
theorem countP_eraseIdx_add {α : Type} (p : α → Bool) (l : List α) (i : Nat) (r : α)
    (h : l[i]? = some r) :
    (l.eraseIdx i).countP p + (if p r then 1 else 0) = l.countP p := by
  induction l generalizing i with
  | nil => simp at h
  | cons a l ih =>
    cases i with
    | zero =>
      simp at h
      subst h
      simp [List.countP_cons]
    | succ i =>
      simp at h
      have := ih i h
      simp only [List.eraseIdx_cons_succ, List.countP_cons]
      omega

theorem inv_new (H P : Type) : Inv (NewWorkMuxLimited H P) := by
  refine ⟨rfl, ?_, ?_, ?_, ?_⟩
  · intro c e hl
    simp [NewWorkMuxLimited] at hl
  · intro c1 c2 e1 e2 hl
    simp [NewWorkMuxLimited] at hl
  · intro sem g hg
    simp [NewWorkMuxLimited] at hg
  · intro r hr
    simp [NewWorkMuxLimited] at hr

/-- A registration keeps the invariant. -/
theorem inv_alloc {H P : Type} (s : Sys H P) (hI : Inv s) (c : String) (hh : H) (k : Nat)
    (hc : c ≠ "") (hun : s.mux.table.lookup c = none) :
    Inv ({ s with
      chans := s.chans ++ [{ cap := k, len := 0 }]
      mux := { m := some (s.mux.table.insert c
          { h := some hh, tube := c, sem := some s.chans.length }) } } :
      Sys H P) := by
  have hfresh : ∀ c1 e1, s.mux.table.lookup c1 = some e1 → e1.sem ≠ some s.chans.length := by
    intro c1 e1 hl heq
    obtain ⟨_, _, _, sem, hsem, hlt⟩ := hI.entry c1 e1 hl
    rw [hsem] at heq
    injection heq with heq
    omega
  refine ⟨rfl, ?_, ?_, ?_, ?_⟩
  · intro c1 e1 hl
    simp only [table_mk] at hl
    by_cases h1 : c1 = c
    · subst h1
      rw [AList.lookup_insert] at hl
      injection hl with hl
      subst hl
      exact ⟨rfl, hc, rfl, s.chans.length, rfl, by simp⟩
    · rw [AList.lookup_insert_ne h1] at hl
      obtain ⟨ht, hne, hsome, sem, hsem, hlt⟩ := hI.entry c1 e1 hl
      exact ⟨ht, hne, hsome, sem, hsem, by simp; omega⟩
  · intro c1 c2 e1 e2 hl1 hl2 heq
    simp only [table_mk] at hl1 hl2
    by_cases h1 : c1 = c
    · by_cases h2 : c2 = c
      · rw [h1, h2]
      · exfalso
        subst h1
        rw [AList.lookup_insert] at hl1
        injection hl1 with hl1
        subst hl1
        rw [AList.lookup_insert_ne h2] at hl2
        exact hfresh c2 e2 hl2 heq.symm
    · by_cases h2 : c2 = c
      · exfalso
        subst h2
        rw [AList.lookup_insert] at hl2
        injection hl2 with hl2
        subst hl2
        rw [AList.lookup_insert_ne h1] at hl1
        exact hfresh c1 e1 hl1 heq
      · rw [AList.lookup_insert_ne h1] at hl1
        rw [AList.lookup_insert_ne h2] at hl2
        exact hI.inj c1 c2 e1 e2 hl1 hl2 heq
  · intro sem g hg
    simp only at hg ⊢
    by_cases hlt : sem < s.chans.length
    · rw [List.getElem?_append_left hlt] at hg
      exact hI.chan sem g hg
    · have hle : s.chans.length ≤ sem := by omega
      rw [List.getElem?_append_right hle] at hg
      have hsem : sem = s.chans.length := by
        by_contra hne
        have hpos : 0 < sem - s.chans.length := by omega
        obtain ⟨k1, hk1⟩ := Nat.exists_eq_succ_of_ne_zero (by omega : sem - s.chans.length ≠ 0)
        rw [hk1] at hg
        simp at hg
      subst hsem
      simp at hg
      subst hg
      refine ⟨Nat.zero_le _, ?_⟩
      rw [List.countP_eq_zero]
      intro r hr hp
      obtain ⟨e, hl, hes, _⟩ := hI.goroutine r hr
      have hp1 : r.sem = some s.chans.length := by simpa using hp
      exact hfresh _ e hl (hes.trans hp1)
  · intro r hr
    simp only [table_mk] at hr ⊢
    obtain ⟨e, hl, hes, heh⟩ := hI.goroutine r hr
    have hne : r.j.Tube ≠ c := by
      intro heq
      rw [heq, hun] at hl
      exact Option.noConfusion hl
    exact ⟨e, by rw [AList.lookup_insert_ne hne]; exact hl, hes, heh⟩

/-- An admitted `Work` keeps the invariant. -/
theorem inv_acquire {H P : Type} (s : Sys H P) (hI : Inv s) (job : Job P)
    (e : muxEntryLimited H) (h : H) (sem : Nat) (g : Chan)
    (hl : s.mux.table.lookup job.Tube = some e) (hh : e.h = some h) (hs : e.sem = some sem)
    (hg : s.chans[sem]? = some g) (hfree : g.len < g.cap) :
    Inv ({ s with
      chans := s.chans.set sem { cap := g.cap, len := g.len + 1 }
      running := s.running ++ [{ sem := some sem, h := h, j := job }] } : Sys H P) := by
  refine ⟨hI.alloc, ?_, ?_, ?_, ?_⟩
  · intro c1 e1 hl1
    simp only at hl1 ⊢
    rw [List.length_set]
    exact hI.entry c1 e1 hl1
  · exact hI.inj
  · intro sem1 g1 hg1
    simp only at hg1 ⊢
    rw [List.countP_append]
    by_cases h1 : sem1 = sem
    · subst h1
      have hlt : sem1 < s.chans.length := (List.getElem?_eq_some.mp hg).1
      rw [List.getElem?_set_self hlt] at hg1
      injection hg1 with hg1
      subst hg1
      have hcnt := (hI.chan sem1 g hg).2
      simp only [List.countP_cons, List.countP_nil, decide_True, if_true]
      exact ⟨hfree, by omega⟩
    · rw [List.getElem?_set_ne (Ne.symm h1)] at hg1
      obtain ⟨hle, hcnt⟩ := hI.chan sem1 g1 hg1
      have hne : ¬ (some sem = some sem1) := fun h => h1 (Option.some.inj h).symm
      simp only [List.countP_cons, List.countP_nil, hne, decide_False]
      exact ⟨hle, by simpa using hcnt⟩
  · intro r hr
    simp only at hr ⊢
    rcases List.mem_append.mp hr with hr | hr
    · exact hI.goroutine r hr
    · have hr1 : r = { sem := some sem, h := h, j := job } := by simpa using hr
      subst hr1
      exact ⟨e, hl, hs, hh⟩

/-- The end of a goroutine keeps the invariant. -/
theorem inv_release {H P : Type} (s : Sys H P) (hI : Inv s) (i : Nat) (r : Invocation H P)
    (sem : Nat) (g : Chan) (hr : s.running[i]? = some r) (hs : r.sem = some sem)
    (hg : s.chans[sem]? = some g) :
    Inv ({ s with
      chans := s.chans.set sem { cap := g.cap, len := g.len - 1 }
      running := s.running.eraseIdx i } : Sys H P) := by
  refine ⟨hI.alloc, ?_, ?_, ?_, ?_⟩
  · intro c1 e1 hl1
    simp only at hl1 ⊢
    rw [List.length_set]
    exact hI.entry c1 e1 hl1
  · exact hI.inj
  · intro sem1 g1 hg1
    simp only at hg1 ⊢
    have herase := countP_eraseIdx_add (fun r : Invocation H P => decide (r.sem = some sem1))
      s.running i r hr
    by_cases h1 : sem1 = sem
    · subst h1
      have hlt : sem1 < s.chans.length := (List.getElem?_eq_some.mp hg).1
      rw [List.getElem?_set_self hlt] at hg1
      injection hg1 with hg1
      subst hg1
      obtain ⟨hle, hcnt⟩ := hI.chan sem1 g hg
      simp only [hs, decide_True, if_true] at herase
      simp only
      exact ⟨by omega, by omega⟩
    · rw [List.getElem?_set_ne (Ne.symm h1)] at hg1
      obtain ⟨hle, hcnt⟩ := hI.chan sem1 g1 hg1
      have hne : ¬ (some sem = some sem1) := fun h => h1 (Option.some.inj h).symm
      simp only [hs, hne, decide_False, Bool.false_eq_true, if_false, Nat.add_zero] at herase
      exact ⟨hle, by omega⟩
  · intro r1 hr1
    simp only at hr1 ⊢
    exact hI.goroutine r1 (List.mem_of_mem_eraseIdx hr1)

/-- Every event keeps the invariant. -/
theorem inv_step {H P : Type} (s : Sys H P) (hI : Inv s) (ev : Event H P) :
    Inv (step s ev) := by
  cases ev with
  | handle tube handler limit =>
    rcases Handle_cases s tube handler limit with h | ⟨hc, hun, _, hh, _, heq⟩
    · simp only [step, h.1]
      exact hI
    · simp only [step, heq]
      exact inv_alloc s hI tube hh limit.toNat hc hun
  | handler tube =>
    have : (Handler s tube).1 = s := by
      unfold Handler
      split <;> rfl
    simp only [step, this]
    exact hI
  | tubes => exact hI
  | work j =>
    rcases Work_cases s j with h | ⟨job, e, h, sem, g, _, hl, hh, hs, hg, hfree, heq⟩
    · simp only [step, h.1]
      exact hI
    · simp only [step, heq]
      exact inv_acquire s hI job e h sem g hl hh hs hg hfree
  | done i x =>
    rcases finish_cases s i x with h | ⟨r, sem, g, hr, hs, hg, _, heq⟩
    · simp only [step, h.1]
      exact hI
    · simp only [step, heq]
      exact inv_release s hI i r sem g hr hs hg

/-- Every run from a state with the invariant ends in one. -/
theorem inv_run {H P : Type} (evs : List (Event H P)) (s : Sys H P) (hI : Inv s) :
    Inv (run s evs) := by
  induction evs generalizing s with
  | nil => exact hI
  | cons ev evs ih => exact ih (step s ev) (inv_step s hI ev)

/-- The map of a state reached from `NewWorkMuxLimited` is not nil. -/
theorem alloc_run {H P : Type} (evs : List (Event H P)) :
    (run (NewWorkMuxLimited H P) evs).mux.m.isSome = true :=
  (inv_run evs _ (inv_new H P)).alloc

/-! ## What no event changes -/

/-- An entry, once in the table, is there unchanged after every event. -/
theorem lookup_step {H P : Type} (s : Sys H P) (ev : Event H P) (c : String)
    (e : muxEntryLimited H) (hl : s.mux.table.lookup c = some e) :
    (step s ev).mux.table.lookup c = some e := by
  cases ev with
  | handle tube handler limit =>
    rcases Handle_cases s tube handler limit with h | ⟨_, hun, _, hh, _, heq⟩
    · simp only [step, h.1]
      exact hl
    · simp only [step, heq, table_mk]
      have hne : c ≠ tube := by
        intro heq1
        rw [heq1, hun] at hl
        exact Option.noConfusion hl
      rw [AList.lookup_insert_ne hne]
      exact hl
  | handler tube =>
    have : (Handler s tube).1 = s := by
      unfold Handler
      split <;> rfl
    simp only [step, this]
    exact hl
  | tubes => exact hl
  | work j =>
    rcases Work_cases s j with h | ⟨job, e1, h, sem, g, _, _, _, _, _, _, heq⟩
    · simp only [step, h.1]
      exact hl
    · simp only [step, heq]
      exact hl
  | done i x =>
    rcases finish_cases s i x with h | ⟨r, sem, g, _, _, _, _, heq⟩
    · simp only [step, h.1]
      exact hl
    · simp only [step, heq]
      exact hl

/-- Replacing a cell by one of the same capacity keeps every capacity. -/
theorem cap_set (chans : List Chan) (sem : Nat) (g g1 : Chan) (hg : chans[sem]? = some g)
    (hcap : g1.cap = g.cap) (sem1 : Nat) (g2 : Chan) (h2 : chans[sem1]? = some g2) :
    ∃ g3, (chans.set sem g1)[sem1]? = some g3 ∧ g3.cap = g2.cap := by
  by_cases h1 : sem1 = sem
  · subst h1
    have hlt : sem1 < chans.length := (List.getElem?_eq_some.mp hg).1
    rw [List.getElem?_set_self hlt]
    rw [hg] at h2
    injection h2 with h2
    subst h2
    exact ⟨g1, rfl, hcap⟩
  · rw [List.getElem?_set_ne (Ne.symm h1)]
    exact ⟨g2, h2, rfl⟩

/-- An allocated channel keeps its place and its capacity through every event. -/
theorem cap_step {H P : Type} (s : Sys H P) (ev : Event H P) (sem : Nat) (g : Chan)
    (hg : s.chans[sem]? = some g) :
    ∃ g1, (step s ev).chans[sem]? = some g1 ∧ g1.cap = g.cap := by
  cases ev with
  | handle tube handler limit =>
    rcases Handle_cases s tube handler limit with h | ⟨_, _, _, hh, _, heq⟩
    · simp only [step, h.1]
      exact ⟨g, hg, rfl⟩
    · simp only [step, heq]
      have hlt : sem < s.chans.length := (List.getElem?_eq_some.mp hg).1
      rw [List.getElem?_append_left hlt]
      exact ⟨g, hg, rfl⟩
  | handler tube =>
    have : (Handler s tube).1 = s := by
      unfold Handler
      split <;> rfl
    simp only [step, this]
    exact ⟨g, hg, rfl⟩
  | tubes => exact ⟨g, hg, rfl⟩
  | work j =>
    rcases Work_cases s j with h | ⟨job, e1, h, sem1, g1, _, _, _, _, hg1, _, heq⟩
    · simp only [step, h.1]
      exact ⟨g, hg, rfl⟩
    · simp only [step, heq]
      exact cap_set s.chans sem1 g1 { cap := g1.cap, len := g1.len + 1 } hg1 rfl sem g hg
  | done i x =>
    rcases finish_cases s i x with h | ⟨r, sem1, g1, _, _, hg1, _, heq⟩
    · simp only [step, h.1]
      exact ⟨g, hg, rfl⟩
    · simp only [step, heq]
      exact cap_set s.chans sem1 g1 { cap := g1.cap, len := g1.len - 1 } hg1 rfl sem g hg

theorem lookup_run {H P : Type} (evs : List (Event H P)) (s : Sys H P) (c : String)
    (e : muxEntryLimited H) (hl : s.mux.table.lookup c = some e) :
    (run s evs).mux.table.lookup c = some e := by
  induction evs generalizing s with
  | nil => exact hl
  | cons ev evs ih => exact ih (step s ev) (lookup_step s ev c e hl)

theorem cap_run {H P : Type} (evs : List (Event H P)) (s : Sys H P) (sem : Nat) (g : Chan)
    (hg : s.chans[sem]? = some g) :
    ∃ g1, (run s evs).chans[sem]? = some g1 ∧ g1.cap = g.cap := by
  induction evs generalizing s g with
  | nil => exact ⟨g, hg, rfl⟩
  | cons ev evs ih =>
    obtain ⟨g1, hg1, hcap1⟩ := cap_step s ev sem g hg
    obtain ⟨g2, hg2, hcap2⟩ := ih (step s ev) g1 hg1
    exact ⟨g2, hg2, hcap2.trans hcap1⟩

theorem run_append {H P : Type} (s : Sys H P) (evs1 evs2 : List (Event H P)) :
    run s (evs1 ++ evs2) = run (run s evs1) evs2 := by
  simp [run, List.foldl_append]

/-! ## Gates in states with the invariant -/

/-- The goroutines on a tube's jobs are the goroutines on the tube's channel. -/
theorem runningFor_eq {H P : Type} (s : Sys H P) (hI : Inv s) (c : String)
    (e : muxEntryLimited H) (sem : Nat) (hl : s.mux.table.lookup c = some e)
    (hs : e.sem = some sem) :
    runningFor s c = s.running.countP (fun r => r.sem = some sem) := by
  unfold runningFor
  apply List.countP_congr
  intro r hr
  obtain ⟨e1, hl1, hes1, _⟩ := hI.goroutine r hr
  simp only [decide_eq_true_eq]
  constructor
  · intro htube
    rw [htube, hl] at hl1
    injection hl1 with hl1
    subst hl1
    rw [← hes1, hs]
  · intro hsem
    exact hI.inj r.j.Tube c e1 e hl1 hl (by rw [hes1, hsem, hs])

/-- In a state with the invariant a registered tube has a non-nil handler and a gate
that holds at most its capacity, one element per goroutine on the tube's jobs. -/
theorem gate_registered {H P : Type} (s : Sys H P) (hI : Inv s) (c : String)
    (e : muxEntryLimited H) (hl : s.mux.table.lookup c = some e) :
    ∃ h sem g, e.h = some h ∧ e.sem = some sem ∧ s.chans[sem]? = some g ∧
      gate s c = some g ∧ g.len ≤ g.cap ∧ runningFor s c = g.len := by
  obtain ⟨_, _, hsome, sem, hs, hlt⟩ := hI.entry c e hl
  obtain ⟨h, hh⟩ := Option.isSome_iff_exists.mp hsome
  have hg : s.chans[sem]? = some (s.chans.get ⟨sem, hlt⟩) := by
    simp [List.getElem?_eq_getElem hlt]
  obtain ⟨hle, hcnt⟩ := hI.chan sem _ hg
  refine ⟨h, sem, s.chans.get ⟨sem, hlt⟩, hh, hs, hg, ?_, hle, ?_⟩
  · simp [gate, hl, hs]
  · rw [runningFor_eq s hI c e sem hl hs]
    exact hcnt

/-- The outcome of `Work` on a job whose tube has a handler and a gate. -/
theorem Work_eq {H P : Type} (s : Sys H P) (j : Job P) (e : muxEntryLimited H) (h : H)
    (sem : Nat) (g : Chan) (hl : s.mux.table.lookup j.Tube = some e) (hh : e.h = some h)
    (hs : e.sem = some sem) (hg : s.chans[sem]? = some g) :
    Work s (some j) =
      if g.len < g.cap then
        ({ s with
          chans := s.chans.set sem { cap := g.cap, len := g.len + 1 }
          running := s.running ++ [{ sem := some sem, h := h, j := j }] }, .returned)
      else (s, .blocked) := by
  by_cases hfree : g.len < g.cap
  · rw [if_pos hfree]
    simp only [Work, Handler, mapIndex, hl, hh, hs, hg, Chan.send, if_pos hfree]
  · rw [if_neg hfree]
    simp only [Work, Handler, mapIndex, hl, hh, hs, hg, Chan.send, if_neg hfree]

/-- The gate of a tube registered with limit `n` has capacity `n` ever after. -/
theorem cap_of_handle {H P : Type} (s : Sys H P) (c : String) (h : Option H) (n : Int)
    (hret : (Handle s c h n).2 = .returned) (post : List (Event H P)) :
    ∃ hh g, h = some hh ∧ 0 ≤ n ∧ s.mux.table.lookup c = none ∧ c ≠ "" ∧
      (run (Handle s c h n).1 post).mux.table.lookup c =
        some { h := some hh, tube := c, sem := some s.chans.length } ∧
      (run (Handle s c h n).1 post).chans[s.chans.length]? = some g ∧
      g.cap = n.toNat := by
  rcases Handle_cases s c h n with hbad | ⟨hc, hun, hn, hh, hhe, heq⟩
  · exact absurd hret hbad.2
  · have hl : (Handle s c h n).1.mux.table.lookup c =
        some { h := some hh, tube := c, sem := some s.chans.length } := by
      rw [heq]
      exact AList.lookup_insert _
    have hg : (Handle s c h n).1.chans[s.chans.length]? = some { cap := n.toNat, len := 0 } := by
      rw [heq]
      simp
    obtain ⟨g, hg1, hcap⟩ := cap_run post _ _ _ hg
    exact ⟨hh, g, hhe, hn, hun, hc, lookup_run post _ c _ hl, hg1, hcap⟩

/-- `Handler` only reads. -/
theorem Handler_state {H P : Type} (s : Sys H P) (c : String) : (Handler s c).1 = s := by
  unfold Handler
  split <;> rfl

/-- Writing the cell of one tube's channel leaves the gate of every other tube as it
is. -/
theorem gate_frame {H P : Type} (s s1 : Sys H P) (hI : Inv s) (c : String)
    (e : muxEntryLimited H) (sem : Nat) (g1 : Chan) (hl : s.mux.table.lookup c = some e)
    (hs : e.sem = some sem) (hmux : s1.mux = s.mux) (hch : s1.chans = s.chans.set sem g1)
    (c1 : String) (hne : c1 ≠ c) :
    gate s1 c1 = gate s c1 := by
  unfold gate
  rw [hmux, hch]
  cases hl1 : s.mux.table.lookup c1 with
  | none => rfl
  | some e1 =>
    obtain ⟨_, _, _, sem1, hs1, _⟩ := hI.entry c1 e1 hl1
    have hsem : sem ≠ sem1 := by
      intro heq
      exact hne (hI.inj c1 c e1 e hl1 hl (by rw [hs1, hs, heq]))
    simp only [Option.some_bind, hs1]
    exact List.getElem?_set_ne hsem

/-- Writing the cell of a tube's channel makes that cell the tube's gate. -/
theorem gate_self {H P : Type} (s s1 : Sys H P) (c : String)
    (e : muxEntryLimited H) (sem : Nat) (g g1 : Chan) (hl : s.mux.table.lookup c = some e)
    (hs : e.sem = some sem) (hg : s.chans[sem]? = some g) (hmux : s1.mux = s.mux)
    (hch : s1.chans = s.chans.set sem g1) :
    gate s1 c = some g1 := by
  unfold gate
  rw [hmux, hch, hl]
  simp only [Option.some_bind, hs]
  exact List.getElem?_set_self (List.getElem?_eq_some.mp hg).1

/-- A running goroutine holds a slot of the gate of its job's tube, and its end gives
the slot back. -/
theorem finish_running {H P : Type} (s : Sys H P) (hI : Inv s) (i : Nat)
    (r : Invocation H P) (x : HandlerExit) (hr : s.running[i]? = some r) :
    ∃ e sem g, s.mux.table.lookup r.j.Tube = some e ∧ e.sem = some sem ∧ e.h = some r.h ∧
      s.chans[sem]? = some g ∧ 0 < g.len ∧ g.len ≤ g.cap ∧
      finish s i x = ({ s with
        chans := s.chans.set sem { cap := g.cap, len := g.len - 1 }
        running := s.running.eraseIdx i },
        match x with
        | .normal => .returned
        | .fault msg => .panicked msg) := by
  have hmem : r ∈ s.running := List.getElem?_mem hr
  obtain ⟨e, hl, hes, heh⟩ := hI.goroutine r hmem
  obtain ⟨_, _, _, sem, hs, hlt⟩ := hI.entry _ e hl
  have hg : s.chans[sem]? = some (s.chans.get ⟨sem, hlt⟩) := by
    simp [List.getElem?_eq_getElem hlt]
  obtain ⟨hle, hcnt⟩ := hI.chan sem _ hg
  have hrs : r.sem = some sem := by rw [← hes, hs]
  have hpos : 0 < (s.chans.get ⟨sem, hlt⟩).len := by
    rw [← hcnt, List.countP_pos_iff]
    exact ⟨r, hmem, by simp [hrs]⟩
  refine ⟨e, sem, _, hl, hs, heh, hg, hpos, hle, ?_⟩
  simp only [finish, hr, hrs, hg, Chan.recv, if_pos hpos]

/-- A gate keeps its capacity through every event. -/
theorem gate_cap_step {H P : Type} (s : Sys H P) (ev : Event H P) (c : String) (g : Chan)
    (hgate : gate s c = some g) :
    ∃ g1, gate (step s ev) c = some g1 ∧ g1.cap = g.cap := by
  unfold gate at hgate ⊢
  cases hl : s.mux.table.lookup c with
  | none => simp [hl] at hgate
  | some e =>
    cases hs : e.sem with
    | none => simp [hl, hs] at hgate
    | some sem =>
      have hg : s.chans[sem]? = some g := by simpa [hl, hs] using hgate
      obtain ⟨g1, hg1, hcap⟩ := cap_step s ev sem g hg
      refine ⟨g1, ?_, hcap⟩
      rw [lookup_step s ev c e hl]
      simpa [hs] using hg1

/-! ## The concurrency limit -/

/-- C5: in every state reached from a new router by `Handle`, `Handler`, `Tubes`, `Work`
and goroutine-end events, a registered tube `c` has a gate whose number of
buffered elements is at most its capacity and equals the number of goroutines
running the handler on jobs of `c`; while the gate is full, `Work` on a job of
`c` blocks and changes nothing; and the capacity is the limit `n` of the
`Handle` call of the run that registered `c`. -/
theorem outstanding_le_limit {H P : Type} (evs : List (Event H P)) (c : String)
    (e : muxEntryLimited H)
    (hreg : (run (NewWorkMuxLimited H P) evs).mux.table.lookup c = some e) :
    ∃ g, gate (run (NewWorkMuxLimited H P) evs) c = some g ∧
      g.len ≤ g.cap ∧
      runningFor (run (NewWorkMuxLimited H P) evs) c = g.len ∧
      (g.len = g.cap → ∀ j : Job P, j.Tube = c →
        Work (run (NewWorkMuxLimited H P) evs) (some j) =
          (run (NewWorkMuxLimited H P) evs, .blocked)) ∧
      (∀ (pre post : List (Event H P)) (h : Option H) (n : Int),
        evs = pre ++ Event.handle c h n :: post →
        (Handle (run (NewWorkMuxLimited H P) pre) c h n).2 = .returned →
        (g.cap : Int) = n) := by
  have hI := inv_run evs _ (inv_new H P)
  obtain ⟨h0, sem, g, hh, hs, hg, hgate, hle, hcnt⟩ := gate_registered _ hI c e hreg
  refine ⟨g, hgate, hle, hcnt, ?_, ?_⟩
  · intro hfull j hj
    subst hj
    rw [Work_eq _ j e h0 sem g hreg hh hs hg, if_neg (by omega)]
  · intro pre post h n hevs hret
    obtain ⟨hh1, g1, _, hn, _, _, hl1, hg1, hcap⟩ :=
      cap_of_handle (run (NewWorkMuxLimited H P) pre) c h n hret post
    have hrun : run (NewWorkMuxLimited H P) evs =
        run (Handle (run (NewWorkMuxLimited H P) pre) c h n).1 post := by
      rw [hevs, run_append]
      rfl
    rw [hrun] at hreg hg
    rw [hl1] at hreg
    injection hreg with hreg
    subst hreg
    simp only at hs
    injection hs with hs
    subst hs
    rw [hg1] at hg
    injection hg with hg
    subst hg
    rw [hcap]
    exact Int.toNat_of_nonneg hn

theorem outstanding_le_limit_witness :
    ∃ g, gate (run (NewWorkMuxLimited Nat Nat)
        [.handle "mail" (some 7) 1, .work (some ⟨"mail", 0⟩)]) "mail" = some g ∧
      g.len ≤ g.cap ∧
      runningFor (run (NewWorkMuxLimited Nat Nat)
        [.handle "mail" (some 7) 1, .work (some ⟨"mail", 0⟩)]) "mail" = g.len ∧
      (g.len = g.cap → ∀ j : Job Nat, j.Tube = "mail" →
        Work (run (NewWorkMuxLimited Nat Nat)
          [.handle "mail" (some 7) 1, .work (some ⟨"mail", 0⟩)]) (some j) =
          (run (NewWorkMuxLimited Nat Nat)
            [.handle "mail" (some 7) 1, .work (some ⟨"mail", 0⟩)], .blocked)) ∧
      (∀ (pre post : List (Event Nat Nat)) (h : Option Nat) (n : Int),
        [.handle "mail" (some 7) 1, .work (some ⟨"mail", 0⟩)] =
          pre ++ Event.handle "mail" h n :: post →
        (Handle (run (NewWorkMuxLimited Nat Nat) pre) "mail" h n).2 = .returned →
        (g.cap : Int) = n) :=
  outstanding_le_limit [.handle "mail" (some 7) 1, .work (some ⟨"mail", 0⟩)] "mail"
    { h := some 7, tube := "mail", sem := some 0 } (by decide)

/-- C6: in every reachable state, the end of a running goroutine, by a normal return of
the handler or by a fault, takes exactly one element out of the gate of its
job's tube (the fault goes on as a panic after that), the goroutine is gone,
so it releases once, and a further `Work` on a job of that tube is admitted. -/
theorem finish_releases {H P : Type} (evs : List (Event H P)) (i : Nat)
    (r : Invocation H P) (x : HandlerExit)
    (hr : (run (NewWorkMuxLimited H P) evs).running[i]? = some r) :
    ∃ g, gate (run (NewWorkMuxLimited H P) evs) r.j.Tube = some g ∧ 0 < g.len ∧
      (finish (run (NewWorkMuxLimited H P) evs) i x).2 =
        (match x with
          | .normal => .returned
          | .fault msg => .panicked msg) ∧
      gate (finish (run (NewWorkMuxLimited H P) evs) i x).1 r.j.Tube =
        some { cap := g.cap, len := g.len - 1 } ∧
      (finish (run (NewWorkMuxLimited H P) evs) i x).1.running =
        (run (NewWorkMuxLimited H P) evs).running.eraseIdx i ∧
      runningFor (finish (run (NewWorkMuxLimited H P) evs) i x).1 r.j.Tube + 1 =
        runningFor (run (NewWorkMuxLimited H P) evs) r.j.Tube ∧
      ∀ j : Job P, j.Tube = r.j.Tube →
        (Work (finish (run (NewWorkMuxLimited H P) evs) i x).1 (some j)).2 = .returned := by
  have hI := inv_run evs _ (inv_new H P)
  generalize run (NewWorkMuxLimited H P) evs = s at hr hI ⊢
  obtain ⟨e, sem, g, hl, hs, heh, hg, hpos, hle, heq⟩ := finish_running s hI i r x hr
  have hI1 : Inv (finish s i x).1 := inv_step s hI (.done i x)
  have hgate : gate s r.j.Tube = some g := by simp [gate, hl, hs, hg]
  have hgate1 : gate (finish s i x).1 r.j.Tube = some { cap := g.cap, len := g.len - 1 } :=
    gate_self s _ r.j.Tube e sem g _ hl hs hg (by rw [heq]) (by rw [heq])
  have hl1 : (finish s i x).1.mux.table.lookup r.j.Tube = some e := by rw [heq]; exact hl
  obtain ⟨h0, sem0, g0, _, hs0, hg0, hgate0, _, hcnt0⟩ :=
    gate_registered _ hI1 r.j.Tube e hl1
  obtain ⟨_, _, g2, _, _, _, hgate2, _, hcnt2⟩ := gate_registered _ hI r.j.Tube e hl
  rw [hgate1] at hgate0
  injection hgate0 with hgate0
  rw [hgate] at hgate2
  injection hgate2 with hgate2
  subst hgate0 hgate2
  refine ⟨g, hgate, hpos, by rw [heq], hgate1, by rw [heq], ?_, ?_⟩
  · rw [hcnt0, hcnt2]
    simp only
    omega
  · intro j hj
    have hlj : (finish s i x).1.mux.table.lookup j.Tube = some e := by rw [hj]; exact hl1
    rw [Work_eq _ j e r.h sem0 _ hlj heh hs0 hg0, if_pos (by simp only; omega)]

theorem finish_releases_witness :
    ∃ g, gate (run (NewWorkMuxLimited Nat Nat)
        [.handle "mail" (some 7) 1, .work (some ⟨"mail", 0⟩)]) "mail" = some g ∧ 0 < g.len ∧
      (finish (run (NewWorkMuxLimited Nat Nat)
        [.handle "mail" (some 7) 1, .work (some ⟨"mail", 0⟩)]) 0 (.fault "boom")).2 =
        .panicked "boom" ∧
      gate (finish (run (NewWorkMuxLimited Nat Nat)
        [.handle "mail" (some 7) 1, .work (some ⟨"mail", 0⟩)]) 0 (.fault "boom")).1 "mail" =
        some { cap := g.cap, len := g.len - 1 } ∧
      (finish (run (NewWorkMuxLimited Nat Nat)
        [.handle "mail" (some 7) 1, .work (some ⟨"mail", 0⟩)]) 0 (.fault "boom")).1.running =
        (run (NewWorkMuxLimited Nat Nat)
          [.handle "mail" (some 7) 1, .work (some ⟨"mail", 0⟩)]).running.eraseIdx 0 ∧
      runningFor (finish (run (NewWorkMuxLimited Nat Nat)
        [.handle "mail" (some 7) 1, .work (some ⟨"mail", 0⟩)]) 0 (.fault "boom")).1 "mail" + 1 =
        runningFor (run (NewWorkMuxLimited Nat Nat)
          [.handle "mail" (some 7) 1, .work (some ⟨"mail", 0⟩)]) "mail" ∧
      ∀ j : Job Nat, j.Tube = "mail" →
        (Work (finish (run (NewWorkMuxLimited Nat Nat)
          [.handle "mail" (some 7) 1, .work (some ⟨"mail", 0⟩)]) 0 (.fault "boom")).1
          (some j)).2 = .returned :=
  finish_releases [.handle "mail" (some 7) 1, .work (some ⟨"mail", 0⟩)] 0
    { sem := some 0, h := 7, j := ⟨"mail", 0⟩ } (.fault "boom") (by decide)

/-! ## Independent gates -/

/-- C7: in every reachable state with two distinct registered tubes `A` and `B`, a
`Work` on a job of `A` and the end of a goroutine on a job of `A` leave the
gate of `B` (elements and capacity) as it is; `Work` on a job of `B` is
admitted exactly when the gate of `B` has a free slot; so with the gate of
`A` full and the gate of `B` not full, `Work` on a job of `B` is admitted. -/
theorem gates_independent {H P : Type} (evs : List (Event H P)) (A B : String)
    (eA eB : muxEntryLimited H) (hAB : A ≠ B)
    (hA : (run (NewWorkMuxLimited H P) evs).mux.table.lookup A = some eA)
    (hB : (run (NewWorkMuxLimited H P) evs).mux.table.lookup B = some eB) :
    (∀ j : Job P, j.Tube = A →
      gate (Work (run (NewWorkMuxLimited H P) evs) (some j)).1 B =
        gate (run (NewWorkMuxLimited H P) evs) B) ∧
    (∀ (i : Nat) (r : Invocation H P) (x : HandlerExit),
      (run (NewWorkMuxLimited H P) evs).running[i]? = some r → r.j.Tube = A →
      gate (finish (run (NewWorkMuxLimited H P) evs) i x).1 B =
        gate (run (NewWorkMuxLimited H P) evs) B) ∧
    (∃ gB, gate (run (NewWorkMuxLimited H P) evs) B = some gB ∧
      ∀ j : Job P, j.Tube = B →
        ((Work (run (NewWorkMuxLimited H P) evs) (some j)).2 = .returned ↔ gB.len < gB.cap)) ∧
    (∀ gA gB : Chan, gate (run (NewWorkMuxLimited H P) evs) A = some gA →
      gate (run (NewWorkMuxLimited H P) evs) B = some gB →
      gA.len = gA.cap → gB.len < gB.cap →
      ∀ j : Job P, j.Tube = B →
        (Work (run (NewWorkMuxLimited H P) evs) (some j)).2 = .returned) := by
  have hI := inv_run evs _ (inv_new H P)
  generalize run (NewWorkMuxLimited H P) evs = s at hA hB hI ⊢
  obtain ⟨hhA, semA, gA, hehA, hsA, hgA, hgateA, _, _⟩ := gate_registered s hI A eA hA
  obtain ⟨hhB, semB, gB, hehB, hsB, hgB, hgateB, _, _⟩ := gate_registered s hI B eB hB
  have hworkB : ∀ j : Job P, j.Tube = B →
      ((Work s (some j)).2 = .returned ↔ gB.len < gB.cap) := by
    intro j hj
    subst hj
    rw [Work_eq s j eB hhB semB gB hB hehB hsB hgB]
    by_cases hfree : gB.len < gB.cap
    · simp [hfree]
    · simp [hfree]
  refine ⟨?_, ?_, ⟨gB, hgateB, hworkB⟩, ?_⟩
  · intro j hj
    subst hj
    rw [Work_eq s j eA hhA semA gA hA hehA hsA hgA]
    by_cases hfree : gA.len < gA.cap
    · rw [if_pos hfree]
      exact gate_frame s _ hI j.Tube eA semA { cap := gA.cap, len := gA.len + 1 } hA hsA
        (by rfl) (by rfl) B (Ne.symm hAB)
    · rw [if_neg hfree]
  · intro i r x hr hj
    subst hj
    obtain ⟨e, sem, g, hl, hs, _, _, _, _, heq⟩ := finish_running s hI i r x hr
    rw [heq]
    exact gate_frame s _ hI r.j.Tube e sem { cap := g.cap, len := g.len - 1 } hl hs
      (by rfl) (by rfl) B (Ne.symm hAB)
  · intro gA1 gB1 _ hgB1 _ hfree j hj
    rw [hgateB] at hgB1
    injection hgB1 with hgB1
    subst hgB1
    exact (hworkB j hj).mpr hfree

theorem gates_independent_witness :
    (∀ j : Job Nat, j.Tube = "mail" →
      gate (Work (run (NewWorkMuxLimited Nat Nat)
        [.handle "mail" (some 7) 1, .handle "sms" (some 8) 1, .work (some ⟨"mail", 0⟩)])
        (some j)).1 "sms" =
        gate (run (NewWorkMuxLimited Nat Nat)
        [.handle "mail" (some 7) 1, .handle "sms" (some 8) 1, .work (some ⟨"mail", 0⟩)]) "sms") ∧
    (∀ (i : Nat) (r : Invocation Nat Nat) (x : HandlerExit),
      (run (NewWorkMuxLimited Nat Nat)
        [.handle "mail" (some 7) 1, .handle "sms" (some 8) 1,
          .work (some ⟨"mail", 0⟩)]).running[i]? = some r → r.j.Tube = "mail" →
      gate (finish (run (NewWorkMuxLimited Nat Nat)
        [.handle "mail" (some 7) 1, .handle "sms" (some 8) 1, .work (some ⟨"mail", 0⟩)])
        i x).1 "sms" =
        gate (run (NewWorkMuxLimited Nat Nat)
        [.handle "mail" (some 7) 1, .handle "sms" (some 8) 1, .work (some ⟨"mail", 0⟩)]) "sms") ∧
    (∃ gB, gate (run (NewWorkMuxLimited Nat Nat)
        [.handle "mail" (some 7) 1, .handle "sms" (some 8) 1, .work (some ⟨"mail", 0⟩)])
        "sms" = some gB ∧
      ∀ j : Job Nat, j.Tube = "sms" →
        ((Work (run (NewWorkMuxLimited Nat Nat)
          [.handle "mail" (some 7) 1, .handle "sms" (some 8) 1, .work (some ⟨"mail", 0⟩)])
          (some j)).2 = .returned ↔ gB.len < gB.cap)) ∧
    (∀ gA gB : Chan, gate (run (NewWorkMuxLimited Nat Nat)
        [.handle "mail" (some 7) 1, .handle "sms" (some 8) 1, .work (some ⟨"mail", 0⟩)])
        "mail" = some gA →
      gate (run (NewWorkMuxLimited Nat Nat)
        [.handle "mail" (some 7) 1, .handle "sms" (some 8) 1, .work (some ⟨"mail", 0⟩)])
        "sms" = some gB →
      gA.len = gA.cap → gB.len < gB.cap →
      ∀ j : Job Nat, j.Tube = "sms" →
        (Work (run (NewWorkMuxLimited Nat Nat)
          [.handle "mail" (some 7) 1, .handle "sms" (some 8) 1, .work (some ⟨"mail", 0⟩)])
          (some j)).2 = .returned) :=
  gates_independent
    [.handle "mail" (some 7) 1, .handle "sms" (some 8) 1, .work (some ⟨"mail", 0⟩)]
    "mail" "sms" { h := some 7, tube := "mail", sem := some 0 }
    { h := some 8, tube := "sms", sem := some 1 } (by decide) (by decide) (by decide)

/-! ## Admission -/

/-- C8: in every reachable state, for a registered tube `c` whose gate has a free slot
and a job `j` of `c`, `Work` returns (no panic, no wait), the gate of `c` holds
one element more, every other gate is as it was, and exactly one goroutine is
added, which runs the handler that `Handler` finds for `c` on `j` and is still
running when `Work` returns. -/
theorem work_admits {H P : Type} (evs : List (Event H P)) (c : String)
    (e : muxEntryLimited H) (g : Chan) (j : Job P)
    (hreg : (run (NewWorkMuxLimited H P) evs).mux.table.lookup c = some e)
    (hgate : gate (run (NewWorkMuxLimited H P) evs) c = some g)
    (hfree : g.len < g.cap) (hj : j.Tube = c) :
    ∃ h, (Handler (run (NewWorkMuxLimited H P) evs) c).2 = some h ∧
      (Work (run (NewWorkMuxLimited H P) evs) (some j)).2 = .returned ∧
      gate (Work (run (NewWorkMuxLimited H P) evs) (some j)).1 c =
        some { cap := g.cap, len := g.len + 1 } ∧
      (∀ c1, c1 ≠ c →
        gate (Work (run (NewWorkMuxLimited H P) evs) (some j)).1 c1 =
          gate (run (NewWorkMuxLimited H P) evs) c1) ∧
      (Work (run (NewWorkMuxLimited H P) evs) (some j)).1.running =
        (run (NewWorkMuxLimited H P) evs).running ++ [{ sem := e.sem, h := h, j := j }] ∧
      (Work (run (NewWorkMuxLimited H P) evs) (some j)).1.mux =
        (run (NewWorkMuxLimited H P) evs).mux := by
  have hI := inv_run evs _ (inv_new H P)
  generalize run (NewWorkMuxLimited H P) evs = s at hreg hgate hI ⊢
  subst hj
  obtain ⟨h, sem, g1, heh, hs, hg, hgate1, _, _⟩ := gate_registered s hI j.Tube e hreg
  rw [hgate] at hgate1
  injection hgate1 with hgate1
  subst hgate1
  have hw := Work_eq s j e h sem g hreg heh hs hg
  rw [if_pos hfree] at hw
  refine ⟨h, by simp [Handler, hreg, heh], by rw [hw], ?_, ?_, by rw [hw, hs], by rw [hw]⟩
  · exact gate_self s _ j.Tube e sem g _ hreg hs hg (by rw [hw]) (by rw [hw])
  · intro c1 hc1
    exact gate_frame s _ hI j.Tube e sem _ hreg hs (by rw [hw]) (by rw [hw]) c1 hc1

theorem work_admits_witness :
    ∃ h, (Handler (run (NewWorkMuxLimited Nat Nat) [.handle "mail" (some 7) 1]) "mail").2 =
        some h ∧
      (Work (run (NewWorkMuxLimited Nat Nat) [.handle "mail" (some 7) 1])
        (some ⟨"mail", 5⟩)).2 = .returned ∧
      gate (Work (run (NewWorkMuxLimited Nat Nat) [.handle "mail" (some 7) 1])
        (some ⟨"mail", 5⟩)).1 "mail" = some { cap := 1, len := 0 + 1 } ∧
      (∀ c1, c1 ≠ "mail" →
        gate (Work (run (NewWorkMuxLimited Nat Nat) [.handle "mail" (some 7) 1])
          (some ⟨"mail", 5⟩)).1 c1 =
          gate (run (NewWorkMuxLimited Nat Nat) [.handle "mail" (some 7) 1]) c1) ∧
      (Work (run (NewWorkMuxLimited Nat Nat) [.handle "mail" (some 7) 1])
        (some ⟨"mail", 5⟩)).1.running =
        (run (NewWorkMuxLimited Nat Nat) [.handle "mail" (some 7) 1]).running ++
          [{ sem := some 0, h := h, j := ⟨"mail", 5⟩ }] ∧
      (Work (run (NewWorkMuxLimited Nat Nat) [.handle "mail" (some 7) 1])
        (some ⟨"mail", 5⟩)).1.mux =
        (run (NewWorkMuxLimited Nat Nat) [.handle "mail" (some 7) 1]).mux :=
  work_admits [.handle "mail" (some 7) 1] "mail" { h := some 7, tube := "mail", sem := some 0 }
    { cap := 1, len := 0 } ⟨"mail", 5⟩ (by decide) (by decide) (by decide) rfl

/-! ## The routing table only grows -/

/-- C9: a `Handle` that returns adds the key of its tube, which was absent, with its
handler, and leaves every other key's entry and gate as they were; a `Handle`
that panics changes nothing; `Handler` and `Tubes` change nothing; `Work` and
the end of a goroutine leave the table as it is and every gate's capacity as
it is; so a handler that `Handler` finds for a tube is found after every run. -/
theorem table_only_grows {H P : Type} :
    (∀ (s : Sys H P) (c : String) (h : Option H) (n : Int),
      (Handle s c h n).2 = .returned →
      s.mux.table.lookup c = none ∧
      (∃ e, (Handle s c h n).1.mux.table.lookup c = some e ∧ e.h = h) ∧
      (Handle s c h n).1.mux.table.keys = c :: s.mux.table.keys ∧
      ∀ c1, c1 ≠ c →
        (Handle s c h n).1.mux.table.lookup c1 = s.mux.table.lookup c1 ∧
        ∀ g, gate s c1 = some g → gate (Handle s c h n).1 c1 = some g) ∧
    (∀ (s : Sys H P) (c : String) (h : Option H) (n : Int),
      (Handle s c h n).2 ≠ .returned → (Handle s c h n).1 = s) ∧
    (∀ (s : Sys H P) (c : String), (Handler s c).1 = s) ∧
    (∀ s : Sys H P, (Tubes s).1 = s) ∧
    (∀ (s : Sys H P) (j : Option (Job P)),
      (Work s j).1.mux = s.mux ∧
      ∀ c g, gate s c = some g → ∃ g1, gate (Work s j).1 c = some g1 ∧ g1.cap = g.cap) ∧
    (∀ (s : Sys H P) (i : Nat) (x : HandlerExit),
      (finish s i x).1.mux = s.mux ∧
      ∀ c g, gate s c = some g → ∃ g1, gate (finish s i x).1 c = some g1 ∧ g1.cap = g.cap) ∧
    (∀ (s : Sys H P) (c : String) (h : H) (evs : List (Event H P)),
      (Handler s c).2 = some h → (Handler (run s evs) c).2 = some h) := by
  refine ⟨?_, ?_, Handler_state, fun _ => rfl, ?_, ?_, ?_⟩
  · intro s c h n hret
    rcases Handle_cases s c h n with hbad | ⟨hc, hun, hn, hh, hhe, heq⟩
    · exact absurd hret hbad.2
    · refine ⟨hun, ⟨_, by rw [heq]; exact AList.lookup_insert _, hhe.symm⟩, ?_, ?_⟩
      · rw [heq]
        simp only [table_mk]
        rw [AList.keys_insert, List.erase_of_not_mem]
        exact AList.mem_keys.not.mp (AList.lookup_eq_none.mp hun)
      · intro c1 hc1
        rw [heq]
        simp only [table_mk]
        refine ⟨AList.lookup_insert_ne hc1, ?_⟩
        intro g hgate
        unfold gate at hgate ⊢
        simp only [table_mk]
        rw [AList.lookup_insert_ne hc1]
        cases hl : s.mux.table.lookup c1 with
        | none => simp [hl] at hgate
        | some e =>
          cases hs : e.sem with
          | none => simp [hl, hs] at hgate
          | some sem =>
            have hg : s.chans[sem]? = some g := by simpa [hl, hs] using hgate
            simp only [Option.some_bind, hs]
            rw [List.getElem?_append_left (List.getElem?_eq_some.mp hg).1]
            exact hg
  · intro s c h n hret
    rcases Handle_cases s c h n with hbad | ⟨_, _, _, _, _, heq⟩
    · exact hbad.1
    · rw [heq] at hret
      exact absurd rfl hret
  · intro s j
    constructor
    · rcases Work_cases s j with h | ⟨_, _, _, _, _, _, _, _, _, _, _, heq⟩
      · rw [h.1]
      · rw [heq]
    · intro c g hgate
      exact gate_cap_step s (.work j) c g hgate
  · intro s i x
    constructor
    · rcases finish_cases s i x with h | ⟨_, _, _, _, _, _, _, heq⟩
      · rw [h.1]
      · rw [heq]
    · intro c g hgate
      exact gate_cap_step s (.done i x) c g hgate
  · intro s c h evs hfound
    cases hl : s.mux.table.lookup c with
    | none => simp [Handler, hl] at hfound
    | some e =>
      have heh : e.h = some h := by simpa [Handler, hl] using hfound
      simp [Handler, lookup_run evs s c e hl, heh]

theorem table_only_grows_witness :
    (Handle (NewWorkMuxLimited Nat Nat) "mail" (some 7) 2).1.mux.table.keys = ["mail"] ∧
    (Handle (Handle (NewWorkMuxLimited Nat Nat) "mail" (some 7) 2).1 "mail" (some 8) 3).1 =
      (Handle (NewWorkMuxLimited Nat Nat) "mail" (some 7) 2).1 ∧
    (Handler (run (Handle (NewWorkMuxLimited Nat Nat) "mail" (some 7) 2).1
      [.work (some ⟨"mail", 0⟩), .handle "sms" (some 8) 1, .done 0 .normal]) "mail").2 =
      some 7 :=
  ⟨((table_only_grows (H := Nat) (P := Nat)).1 (NewWorkMuxLimited Nat Nat) "mail" (some 7) 2
      (by decide)).2.2.1,
    (table_only_grows (H := Nat) (P := Nat)).2.1
      (Handle (NewWorkMuxLimited Nat Nat) "mail" (some 7) 2).1 "mail" (some 8) 3 (by decide),
    (table_only_grows (H := Nat) (P := Nat)).2.2.2.2.2.2
      (Handle (NewWorkMuxLimited Nat Nat) "mail" (some 7) 2).1 "mail" 7
      [.work (some ⟨"mail", 0⟩), .handle "sms" (some 8) 1, .done 0 .normal] (by decide)⟩

/-! ## Limit zero -/

/-- C10: in a reachable state, `Handle` of a non-empty unregistered tube `c` with a
non-nil handler and limit 0 returns, and after every further run the gate of
`c` has capacity 0 and no element, no goroutine runs on a job of `c`, and
`Work` on a job of `c` blocks and changes nothing. -/
theorem limit_zero_never_runs {H P : Type} (pre : List (Event H P)) (c : String) (h : H)
    (hc : c ≠ "") (hun : (run (NewWorkMuxLimited H P) pre).mux.table.lookup c = none) :
    (Handle (run (NewWorkMuxLimited H P) pre) c (some h) 0).2 = .returned ∧
    ∀ post : List (Event H P),
      gate (run (Handle (run (NewWorkMuxLimited H P) pre) c (some h) 0).1 post) c =
        some { cap := 0, len := 0 } ∧
      runningFor (run (Handle (run (NewWorkMuxLimited H P) pre) c (some h) 0).1 post) c = 0 ∧
      (∀ r ∈ (run (Handle (run (NewWorkMuxLimited H P) pre) c (some h) 0).1 post).running,
        r.j.Tube ≠ c) ∧
      ∀ j : Job P, j.Tube = c →
        Work (run (Handle (run (NewWorkMuxLimited H P) pre) c (some h) 0).1 post) (some j) =
          (run (Handle (run (NewWorkMuxLimited H P) pre) c (some h) 0).1 post, .blocked) := by
  have hI0 := inv_run pre _ (inv_new H P)
  generalize run (NewWorkMuxLimited H P) pre = s0 at hun hI0 ⊢
  have hret : (Handle s0 c (some h) 0).2 = .returned := by
    have hm := m_of_isSome s0.mux hI0.alloc
    simp [Handle, hc, hun, makeChan, hm]
  refine ⟨hret, ?_⟩
  intro post
  have hI1 : Inv (Handle s0 c (some h) 0).1 := inv_step s0 hI0 (.handle c (some h) 0)
  have hI := inv_run post _ hI1
  obtain ⟨hh, g, _, _, _, _, hl, hg, hcap⟩ := cap_of_handle s0 c (some h) 0 hret post
  generalize run (Handle s0 c (some h) 0).1 post = s at hI hl hg ⊢
  obtain ⟨h1, sem, g1, heh, hs, hg1, hgate, hle, hcnt⟩ := gate_registered s hI c _ hl
  simp only at hs
  injection hs with hs
  subst hs
  rw [hg] at hg1
  injection hg1 with hg1
  subst hg1
  have hcap0 : g.cap = 0 := by simpa using hcap
  have hlen0 : g.len = 0 := by omega
  have hg0 : g = { cap := 0, len := 0 } := by
    cases g
    simp only at hcap0 hlen0
    subst hcap0 hlen0
    rfl
  refine ⟨by rw [hgate, hg0], by rw [hcnt, hlen0], ?_, ?_⟩
  · intro r hr htube
    have hzero : runningFor s c = 0 := by rw [hcnt, hlen0]
    unfold runningFor at hzero
    rw [List.countP_eq_zero] at hzero
    exact hzero r hr (by simpa using htube)
  · intro j hj
    subst hj
    rw [Work_eq s j _ h1 _ g hl heh rfl hg, if_neg (by omega)]

theorem limit_zero_never_runs_witness :
    (Handle (run (NewWorkMuxLimited Nat Nat) [.handle "sms" (some 8) 1]) "mail"
      (some 7) 0).2 = .returned ∧
    ∀ post : List (Event Nat Nat),
      gate (run (Handle (run (NewWorkMuxLimited Nat Nat) [.handle "sms" (some 8) 1]) "mail"
        (some 7) 0).1 post) "mail" = some { cap := 0, len := 0 } ∧
      runningFor (run (Handle (run (NewWorkMuxLimited Nat Nat) [.handle "sms" (some 8) 1])
        "mail" (some 7) 0).1 post) "mail" = 0 ∧
      (∀ r ∈ (run (Handle (run (NewWorkMuxLimited Nat Nat) [.handle "sms" (some 8) 1]) "mail"
        (some 7) 0).1 post).running, r.j.Tube ≠ "mail") ∧
      ∀ j : Job Nat, j.Tube = "mail" →
        Work (run (Handle (run (NewWorkMuxLimited Nat Nat) [.handle "sms" (some 8) 1]) "mail"
          (some 7) 0).1 post) (some j) =
          (run (Handle (run (NewWorkMuxLimited Nat Nat) [.handle "sms" (some 8) 1]) "mail"
            (some 7) 0).1 post, .blocked) :=
  limit_zero_never_runs [.handle "sms" (some 8) 1] "mail" 7 (by decide) (by decide)

/-! ## Enumeration -/

/-- The fill loop of `Tubes`, started after `pre` on a slice with room for the rest,
writes the keys in iteration order after `pre`. -/
theorem fill_loop {H : Type} (l : List (Sigma fun _ : String => muxEntryLimited H))
    (pre : List String) :
    l.foldl (fun (acc : List String × Nat) kv => (acc.1.set acc.2 kv.1, acc.2 + 1))
      (pre ++ List.replicate l.length "", pre.length) =
      (pre ++ l.map Sigma.fst, pre.length + l.length) := by
  induction l generalizing pre with
  | nil => simp
  | cons kv l ih =>
    have hset : (pre ++ List.replicate (l.length + 1) "").set pre.length kv.1 =
        (pre ++ [kv.1]) ++ List.replicate l.length "" := by
      rw [List.set_append_right _ _ (Nat.le_refl _)]
      simp [List.replicate_succ]
    have hlen : pre.length + 1 = (pre ++ [kv.1]).length := by simp
    simp only [List.foldl_cons, List.length_cons, List.map_cons]
    rw [hset, hlen, ih (pre ++ [kv.1])]
    simp only [List.append_assoc, List.singleton_append, List.length_append,
      List.length_singleton, Prod.mk.injEq, true_and]
    omega

/-- `Tubes` returns the keys of the table. -/
theorem Tubes_eq_keys {H P : Type} (s : Sys H P) : (Tubes s).2 = s.mux.table.keys := by
  have h := fill_loop s.mux.table.entries []
  simp only [List.nil_append, List.length_nil] at h
  simp only [Tubes, h]
  rfl

/-- C11: for every state, a tube is in the list `Tubes` returns exactly when it has an
entry in the table, no tube is in the list twice, and the list is as long as
the table has entries; `Tubes` changes nothing. -/
theorem tubes_exact {H P : Type} (s : Sys H P) :
    (∀ c : String, c ∈ (Tubes s).2 ↔ (s.mux.table.lookup c).isSome = true) ∧
    (Tubes s).2.Nodup ∧
    (Tubes s).2.length = s.mux.table.entries.length ∧
    (Tubes s).1 = s := by
  rw [Tubes_eq_keys]
  refine ⟨?_, s.mux.table.keys_nodup, ?_, rfl⟩
  · intro c
    rw [← AList.mem_keys, AList.lookup_isSome]
  · simp [AList.keys, List.keys]

/-! ## A new router -/

/-- C12: on the router `NewWorkMuxLimited` returns, `Handler` finds no handler for any
tube, `Tubes` returns the empty list, and `Work` panics for every job: on a
nil job by the nil dereference, on any other with "no handler for tube "
followed by its tube. -/
theorem new_router_empty {H P : Type} :
    (NewWorkMuxLimited H P).mux.table.entries = [] ∧
    (∀ c : String, (Handler (NewWorkMuxLimited H P) c).2 = none) ∧
    (Tubes (NewWorkMuxLimited H P)).2 = [] ∧
    (∀ j : Option (Job P), ∃ msg, Work (NewWorkMuxLimited H P) j =
      (NewWorkMuxLimited H P, .panicked msg)) ∧
    (∀ j : Job P, Work (NewWorkMuxLimited H P) (some j) =
      (NewWorkMuxLimited H P, .panicked ("no handler for tube " ++ j.Tube))) := by
  have hl : ∀ c : String, (NewWorkMuxLimited H P).mux.table.lookup c = none := fun c =>
    AList.lookup_empty c
  have hw : ∀ j : Job P, Work (NewWorkMuxLimited H P) (some j) =
      (NewWorkMuxLimited H P, .panicked ("no handler for tube " ++ j.Tube)) := by
    intro j
    simp [Work, Handler, hl]
  refine ⟨rfl, ?_, ?_, ?_, hw⟩
  · intro c
    simp [Handler, hl]
  · rw [Tubes_eq_keys]
    rfl
  · intro j
    cases j with
    | none => exact ⟨_, rfl⟩
    | some job => exact ⟨_, hw job⟩

/-! ## Entries of reachable states -/

/-- A key that one event brings into the table is the tube of a `Handle` that
returned. -/
theorem new_key_step {H P : Type} (s : Sys H P) (ev : Event H P) (c : String)
    (e : muxEntryLimited H) (hun : s.mux.table.lookup c = none)
    (hl : (step s ev).mux.table.lookup c = some e) :
    ∃ h n, ev = .handle c h n ∧ (Handle s c h n).2 = .returned := by
  have hsame : ∀ s1 : Sys H P, s1.mux = s.mux → s1.mux.table.lookup c = some e → False := by
    intro s1 hmux hl1
    rw [hmux, hun] at hl1
    exact Option.noConfusion hl1
  cases ev with
  | handle tube handler limit =>
    rcases Handle_cases s tube handler limit with hbad | ⟨_, _, _, hh, _, heq⟩
    · exact (hsame _ (by simp only [step, hbad.1]) hl).elim
    · by_cases htube : c = tube
      · subst htube
        exact ⟨handler, limit, rfl, by rw [heq]⟩
      · simp only [step, heq, table_mk] at hl
        rw [AList.lookup_insert_ne htube, hun] at hl
        exact Option.noConfusion hl
  | handler tube => exact (hsame _ (by simp only [step, Handler_state]) hl).elim
  | tubes => exact (hsame _ rfl hl).elim
  | work j =>
    rcases Work_cases s j with h | ⟨_, _, _, _, _, _, _, _, _, _, _, heq⟩
    · exact (hsame _ (by simp only [step, h.1]) hl).elim
    · exact (hsame _ (by simp only [step, heq]) hl).elim
  | done i x =>
    rcases finish_cases s i x with h | ⟨_, _, _, _, _, _, _, heq⟩
    · exact (hsame _ (by simp only [step, h.1]) hl).elim
    · exact (hsame _ (by simp only [step, heq]) hl).elim

/-- Every entry of a reachable state was put there by a `Handle` of the run that
returned. -/
theorem registered_by_handle {H P : Type} (evs : List (Event H P)) (c : String)
    (e : muxEntryLimited H)
    (hl : (run (NewWorkMuxLimited H P) evs).mux.table.lookup c = some e) :
    ∃ pre post h n, evs = pre ++ Event.handle c h n :: post ∧
      (Handle (run (NewWorkMuxLimited H P) pre) c h n).2 = .returned := by
  induction evs using List.reverseRecOn generalizing e with
  | nil =>
    have hnone : (run (NewWorkMuxLimited H P) []).mux.table.lookup c = none := AList.lookup_empty c
    rw [hnone] at hl
    exact Option.noConfusion hl
  | append_singleton evs ev ih =>
    rw [run_append] at hl
    cases hprev : (run (NewWorkMuxLimited H P) evs).mux.table.lookup c with
    | some e0 =>
      obtain ⟨pre, post, h, n, heq, hret⟩ := ih e0 hprev
      exact ⟨pre, post ++ [ev], h, n, by rw [heq]; simp, hret⟩
    | none =>
      obtain ⟨h, n, hev, hret⟩ := new_key_step _ ev c e hprev hl
      exact ⟨evs, [], h, n, by rw [hev], hret⟩

/-- C14: in every state reached from `NewWorkMuxLimited`, an entry has a non-empty key,
a non-nil handler, its key as tube field, and a gate whose capacity is the limit
of the `Handle` of the run that registered the key (there is one, and every
such `Handle` has that limit); `Handler` returns nil exactly for the tubes with
no entry; and `Work` on a non-nil job panics exactly when the job's tube has no
entry. -/
theorem reachable_entries {H P : Type} (evs : List (Event H P)) :
    (∀ c e, (run (NewWorkMuxLimited H P) evs).mux.table.lookup c = some e →
      c ≠ "" ∧ e.h ≠ none ∧ e.tube = c ∧
      ∃ g, gate (run (NewWorkMuxLimited H P) evs) c = some g ∧
        (∃ pre post hh n, evs = pre ++ Event.handle c (some hh) n :: post ∧
          (Handle (run (NewWorkMuxLimited H P) pre) c (some hh) n).2 = .returned ∧
          e.h = some hh ∧ (g.cap : Int) = n) ∧
        (∀ (pre post : List (Event H P)) (h : Option H) (n : Int),
          evs = pre ++ Event.handle c h n :: post →
          (Handle (run (NewWorkMuxLimited H P) pre) c h n).2 = .returned →
          e.h = h ∧ (g.cap : Int) = n)) ∧
    (∀ c, (Handler (run (NewWorkMuxLimited H P) evs) c).2 = none ↔
      (run (NewWorkMuxLimited H P) evs).mux.table.lookup c = none) ∧
    (∀ j : Job P, (∃ msg, (Work (run (NewWorkMuxLimited H P) evs) (some j)).2 = .panicked msg) ↔
      (run (NewWorkMuxLimited H P) evs).mux.table.lookup j.Tube = none) := by
  have hI := inv_run evs _ (inv_new H P)
  have hall : ∀ (c : String) (e : muxEntryLimited H) (g : Chan),
      (run (NewWorkMuxLimited H P) evs).mux.table.lookup c = some e →
      gate (run (NewWorkMuxLimited H P) evs) c = some g →
      ∀ (pre post : List (Event H P)) (h : Option H) (n : Int),
        evs = pre ++ Event.handle c h n :: post →
        (Handle (run (NewWorkMuxLimited H P) pre) c h n).2 = .returned →
        e.h = h ∧ (g.cap : Int) = n := by
    intro c e g hl hgate pre post h n hevs hret
    obtain ⟨hh1, g1, hhe, hn, _, _, hl1, hg1, hcap⟩ :=
      cap_of_handle (run (NewWorkMuxLimited H P) pre) c h n hret post
    have hrun : run (NewWorkMuxLimited H P) evs =
        run (Handle (run (NewWorkMuxLimited H P) pre) c h n).1 post := by
      rw [hevs, run_append]
      rfl
    rw [hrun] at hl hgate
    rw [hl1] at hl
    injection hl with hl
    subst hl
    have hgate1 : gate (run (Handle (run (NewWorkMuxLimited H P) pre) c h n).1 post) c =
        some g1 := by
      simp [gate, hl1, hg1]
    rw [hgate1] at hgate
    injection hgate with hgate
    subst hgate
    exact ⟨hhe.symm, by rw [hcap]; exact Int.toNat_of_nonneg hn⟩
  refine ⟨?_, ?_, ?_⟩
  · intro c e hl
    obtain ⟨ht, hc, _, _⟩ := hI.entry c e hl
    obtain ⟨h0, sem, g, heh, _, _, hgate, _, _⟩ := gate_registered _ hI c e hl
    refine ⟨hc, by rw [heh]; exact Option.some_ne_none h0, ht, g, hgate, ?_,
      hall c e g hl hgate⟩
    obtain ⟨pre, post, h, n, hevs, hret⟩ := registered_by_handle evs c e hl
    obtain ⟨hh, hcap⟩ := hall c e g hl hgate pre post h n hevs hret
    rw [heh] at hh
    subst hh
    exact ⟨pre, post, h0, n, hevs, hret, heh, hcap⟩
  · intro c
    cases hl : (run (NewWorkMuxLimited H P) evs).mux.table.lookup c with
    | none => simp [Handler, hl]
    | some e =>
      obtain ⟨h0, _, _, heh, _⟩ := gate_registered _ hI c e hl
      simp [Handler, hl, heh]
  · intro j
    cases hl : (run (NewWorkMuxLimited H P) evs).mux.table.lookup j.Tube with
    | none => simp [Work, Handler, hl]
    | some e =>
      obtain ⟨h0, sem, g, heh, hs, hg, _⟩ := gate_registered _ hI j.Tube e hl
      rw [Work_eq _ j e h0 sem g hl heh hs hg]
      by_cases hfree : g.len < g.cap
      · simp [hfree]
      · simp [hfree]

theorem reachable_entries_witness :
    "mail" ≠ "" ∧ (some 7 : Option Nat) ≠ none ∧
    (⟨some 7, "mail", some 0⟩ : muxEntryLimited Nat).tube = "mail" ∧
    ∃ g, gate (run (NewWorkMuxLimited Nat Nat)
        [.handle "mail" (some 7) 2, .work (some ⟨"mail", 0⟩)]) "mail" = some g ∧
      (∃ pre post hh n,
        [Event.handle "mail" (some 7) 2, .work (some ⟨"mail", 0⟩)] =
          pre ++ Event.handle "mail" (some hh) n :: post ∧
        (Handle (run (NewWorkMuxLimited Nat Nat) pre) "mail" (some hh) n).2 = .returned ∧
        (⟨some 7, "mail", some 0⟩ : muxEntryLimited Nat).h = some hh ∧ (g.cap : Int) = n) ∧
      (∀ (pre post : List (Event Nat Nat)) (h : Option Nat) (n : Int),
        [Event.handle "mail" (some 7) 2, .work (some ⟨"mail", 0⟩)] =
          pre ++ Event.handle "mail" h n :: post →
        (Handle (run (NewWorkMuxLimited Nat Nat) pre) "mail" h n).2 = .returned →
        (⟨some 7, "mail", some 0⟩ : muxEntryLimited Nat).h = h ∧ (g.cap : Int) = n) :=
  (reachable_entries [.handle "mail" (some 7) 2, .work (some ⟨"mail", 0⟩)]).1 "mail"
    ⟨some 7, "mail", some 0⟩ (by decide)

/-! ## Failure of a registration -/

/-- C15 as amended: for every state, `Handle` returns exactly when the map is not nil,
the tube is non-empty, the handler is non-nil, the tube has no entry and the
limit is at least 0; in every other case it panics and the state, the table
with it, is what it was; with a non-empty tube, a non-nil handler and no entry,
a negative limit gives the panic of the channel allocation, and a limit of at
least 0 on the nil map gives the panic of the map write. -/
theorem handle_returns_iff {H P : Type} (s : Sys H P) (c : String) (h : Option H) (n : Int) :
    ((Handle s c h n).2 = .returned ↔
      s.mux.m.isSome = true ∧ c ≠ "" ∧ h.isSome = true ∧ s.mux.table.lookup c = none ∧ 0 ≤ n) ∧
    ((Handle s c h n).2 ≠ .returned →
      (∃ msg, (Handle s c h n).2 = .panicked msg) ∧
      (Handle s c h n).1 = s ∧ (Handle s c h n).1.mux.m = s.mux.m) ∧
    (c ≠ "" → h.isSome = true → s.mux.table.lookup c = none → n < 0 →
      Handle s c h n = (s, .panicked "makechan: size out of range")) ∧
    (c ≠ "" → h.isSome = true → s.mux.table.lookup c = none → 0 ≤ n → s.mux.m = none →
      Handle s c h n = (s, .panicked "assignment to entry in nil map")) := by
  refine ⟨?_, ?_, ?_, ?_⟩
  · constructor
    · intro hret
      rcases Handle_cases s c h n with hbad | ⟨hc, hun, hn, hh, hhe, heq⟩
      · exact absurd hret hbad.2
      · refine ⟨?_, hc, by rw [hhe]; rfl, hun, hn⟩
        cases hm : s.mux.m with
        | some m0 => rfl
        | none =>
          exfalso
          have hlim : ¬ n < 0 := by omega
          simp [Handle, hc, hhe, hun, makeChan, hlim, hm] at hret
    · rintro ⟨halloc, hc, hh, hun, hn⟩
      obtain ⟨h0, rfl⟩ := Option.isSome_iff_exists.mp hh
      have hlim : ¬ n < 0 := by omega
      have hm := m_of_isSome s.mux halloc
      simp [Handle, hc, hun, makeChan, hlim, hm]
  · intro hret
    rcases Handle_cases s c h n with hbad | ⟨_, _, _, _, _, heq⟩
    · have hstate := hbad.1
      refine ⟨?_, hstate, by rw [hstate]⟩
      cases hout : (Handle s c h n).2 with
      | returned => exact absurd hout hret
      | panicked msg => exact ⟨msg, rfl⟩
      | blocked =>
        exfalso
        revert hout
        unfold Handle
        repeat' split
        all_goals simp
    · rw [heq] at hret
      exact absurd rfl hret
  · intro hc hh hun hn
    obtain ⟨h0, rfl⟩ := Option.isSome_iff_exists.mp hh
    simp [Handle, hc, hun, makeChan, hn]
  · intro hc hh hun hn hm
    obtain ⟨h0, rfl⟩ := Option.isSome_iff_exists.mp hh
    have hlim : ¬ n < 0 := by omega
    simp [Handle, hc, hun, makeChan, hlim, hm]

theorem handle_returns_iff_witness :
    Handle (NewWorkMuxLimited Nat Nat) "mail" (some 7) (-1) =
      (NewWorkMuxLimited Nat Nat, .panicked "makechan: size out of range") ∧
    ((∃ msg, (Handle (NewWorkMuxLimited Nat Nat) "mail" (some 7) (-1)).2 = .panicked msg) ∧
      (Handle (NewWorkMuxLimited Nat Nat) "mail" (some 7) (-1)).1 = NewWorkMuxLimited Nat Nat ∧
      (Handle (NewWorkMuxLimited Nat Nat) "mail" (some 7) (-1)).1.mux.m =
        (NewWorkMuxLimited Nat Nat).mux.m) ∧
    Handle (zeroWorkMuxLimited Nat Nat) "mail" (some 7) 1 =
      (zeroWorkMuxLimited Nat Nat, .panicked "assignment to entry in nil map") :=
  ⟨(handle_returns_iff (NewWorkMuxLimited Nat Nat) "mail" (some 7) (-1)).2.2.1
      (by decide) (by decide) (by decide) (by decide),
    (handle_returns_iff (NewWorkMuxLimited Nat Nat) "mail" (some 7) (-1)).2.1 (by decide),
    (handle_returns_iff (zeroWorkMuxLimited Nat Nat) "mail" (some 7) 1).2.2.2
      (by decide) (by decide) (by decide) (by decide) rfl⟩

/-- C15 as stated fails on the zero-value router: tube "mail" is non-empty and has no
entry, the handler is non-nil and the limit is 1, yet `Handle` does not return:
it panics on the write to the nil map, a fifth reason. -/
theorem handle_valid_input_panics_on_nil_map :
    ("mail" ≠ "" ∧ (some 7 : Option Nat).isSome = true ∧
      (zeroWorkMuxLimited Nat Nat).mux.table.lookup "mail" = none ∧ (0 : Int) ≤ 1) ∧
    (Handle (zeroWorkMuxLimited Nat Nat) "mail" (some 7) 1).2 =
      .panicked "assignment to entry in nil map" ∧
    (Handle (zeroWorkMuxLimited Nat Nat) "mail" (some 7) 1).2 ≠ .returned ∧
    ¬ ((Handle (zeroWorkMuxLimited Nat Nat) "mail" (some 7) 1).2 = .returned ↔
      ("mail" ≠ "" ∧ (some 7 : Option Nat).isSome = true ∧
        (zeroWorkMuxLimited Nat Nat).mux.table.lookup "mail" = none ∧ (0 : Int) ≤ 1)) := by
  decide

/-! ## Lock discipline -/

/-- C13 fails on the code: on a router with tube "mail" registered, `Work` on a job of
"mail" read-locks the mutex of its own copy of the router struct for the
handler lookup and reads the map a second time, for the gate, with no lock
held; so not every map read of `Work` is under the read lock of the router's
mutex, not even under the copy's, while `Handler` called on the router reads
under the router's read lock and `Handle` writes under its write lock. -/
theorem work_reads_outside_router_lock :
    WorkOps (Handle (NewWorkMuxLimited Nat Nat) "mail" (some 7) 1).1 (some ⟨"mail", 0⟩) =
      [.RLock .copy, .mapRead, .RUnlock .copy, .mapRead] ∧
    readsUnder .router []
      (WorkOps (Handle (NewWorkMuxLimited Nat Nat) "mail" (some 7) 1).1 (some ⟨"mail", 0⟩)) =
      false ∧
    readsUnder .copy []
      (WorkOps (Handle (NewWorkMuxLimited Nat Nat) "mail" (some 7) 1).1 (some ⟨"mail", 0⟩)) =
      false ∧
    readsUnder .router [] (HandlerOps .router) = true ∧
    HandleOps (NewWorkMuxLimited Nat Nat) "mail" (some 7) 1 =
      [.Lock .router, .mapRead, .mapWrite, .Unlock .router] ∧
    writesUnder .router false (HandleOps (NewWorkMuxLimited Nat Nat) "mail" (some 7) 1) =
      true := by
  decide

end Workers
